import Mathlib

set_option autoImplicit false

/-!
Verification of the `dmpjs/linkedlist` doubly linked list.

The development shallowly embeds the two source components:
* `LinkedListItem<T>` (`src/linked_list_item.ts`): a node holding a value and
  `before`/`behind` links, plus an optional `unlinkCleanup` callback;
* `LinkedList<T>`: head/tail/length bookkeeping plus the bulk operations.

Objects live in an explicit heap addressed by natural-number ids
(`Heap T := Nat → Option (LinkedListItem T)`).  The single kind of callback
occurring in the source (the owning list's `unlinkCleanup`) is modelled by a
boolean flag on each node saying whether the callback is attached; invoking it
runs the list's cleanup (`unlinkCleanupFn`).  Loops that walk the chain are
given explicit fuel; every theorem below that depends on a loop supplies
enough fuel for the walk (the number of allocated ids bounds every chain).
-/

namespace DLL

/-- Model of `LinkedListItem<T>` (src/linked_list_item.ts).  `value`, `before`
and `behind` are the fields of the class; `unlinkCleanup : Bool` records
whether the `unlinkCleanup` callback is present on the node. -/
structure LinkedListItem (T : Type) where
  value : T
  before : Option Nat
  behind : Option Nat
  unlinkCleanup : Bool
  deriving DecidableEq

/-- The heap of allocated nodes, addressed by ids. -/
abbrev Heap (T : Type) := Nat → Option (LinkedListItem T)

/-- Model of `LinkedList<T>` (the class of the main source file): the heap of
all nodes ever allocated, a fresh-id counter, and the `head`, `tail` and
`length` fields.  `length` is an `Int` because the code decrements it without
a lower bound. -/
structure LinkedList (T : Type) where
  heap : Heap T
  fresh : Nat
  head : Option Nat
  tail : Option Nat
  length : Int

variable {T : Type}

/-- Write the `behind` field of node `i` (models `x.behind = v`). -/
def setBehind (s : LinkedList T) (i : Nat) (v : Option Nat) : LinkedList T :=
  { s with heap := fun j => if j = i then (s.heap j).map (fun it => { it with behind := v }) else s.heap j }

/-- Write the `before` field of node `i` (models `x.before = v`). -/
def setBefore (s : LinkedList T) (i : Nat) (v : Option Nat) : LinkedList T :=
  { s with heap := fun j => if j = i then (s.heap j).map (fun it => { it with before := v }) else s.heap j }

/-- Write the `unlinkCleanup` field of node `i`
(models `x.unlinkCleanup = undefined` for `v = false`). -/
def setCleanup (s : LinkedList T) (i : Nat) (v : Bool) : LinkedList T :=
  { s with heap := fun j => if j = i then (s.heap j).map (fun it => { it with unlinkCleanup := v }) else s.heap j }

/-- Method `LinkedListItem.insertBefore(before)`:
`this.before = before; if (!this.unlinkCleanup) this.unlinkCleanup = before.unlinkCleanup`. -/
def insertBefore (s : LinkedList T) (self bef : Nat) : LinkedList T :=
  { s with heap := fun j => if j = self then
      (s.heap j).map (fun it =>
        { it with before := some bef,
                  unlinkCleanup := it.unlinkCleanup || ((s.heap bef).map (·.unlinkCleanup)).getD false })
      else s.heap j }

/-- The `while (itemChainEnd.behind) itemChainEnd = itemChainEnd.behind` walk
of `LinkedListItem.insertBehind`, with fuel. -/
def chainEnd (h : Heap T) : Nat → Nat → Option Nat
  | 0, _ => none
  | fuel + 1, i =>
    match (h i).bind (·.behind) with
    | none => some i
    | some j => chainEnd h fuel j

/-- Method `LinkedListItem.insertBehind(item)`, with fuel for the (in the source
unbounded) recursion; returns the state unchanged on fuel exhaustion, which
never happens for the finite chains all theorems below are about. -/
def insertBehindFuel : Nat → LinkedList T → Nat → Nat → LinkedList T
  | 0, s, _, _ => s
  | fuel + 1, s, self, item =>
    let s1 := insertBefore s item self
    match (s1.heap self).bind (·.behind) with
    | none => setBehind s1 self (some item)
    | some oldNext =>
      match chainEnd s1.heap s1.fresh item with
      | none => s1
      | some itemChainEnd =>
        let s2 := insertBefore s1 oldNext itemChainEnd
        let s3 := insertBehindFuel fuel s2 itemChainEnd oldNext
        setBehind s3 self (some item)

/-- Method `LinkedListItem.insertBehind(item)` on node `self`. -/
def insertBehind (s : LinkedList T) (self item : Nat) : LinkedList T :=
  insertBehindFuel (s.fresh + 2) s self item

/-- The private `LinkedList.unlinkCleanup` callback: advance `head`/retreat
`tail` past the unlinked item and decrement `length`. -/
def unlinkCleanupFn (s : LinkedList T) (i : Nat) : LinkedList T :=
  let s1 := if s.head = some i then { s with head := (s.heap i).bind (·.behind) } else s
  let s2 := if s1.tail = some i then { s1 with tail := (s1.heap i).bind (·.before) } else s1
  { s2 with length := s2.length - 1 }

/-- Method `LinkedListItem.unlink(unchain)` on node `i`: fix the neighbours' links,
invoke the cleanup callback if attached, clear the callback, and optionally
clear the node's own links. -/
def unlink (s : LinkedList T) (i : Nat) (unchain : Bool) : LinkedList T :=
  match s.heap i with
  | none => s
  | some it =>
    let s1 := match it.before with
      | some p => setBehind s p it.behind
      | none => s
    let s2 := match it.behind with
      | some nx => setBefore s1 nx it.before
      | none => s1
    let s3 := if it.unlinkCleanup then unlinkCleanupFn s2 i else s2
    let s4 := setCleanup s3 i false
    if unchain then setBefore (setBehind s4 i none) i none else s4

/-- Allocation `new LinkedListItem(value, this.unlinkCleanup)`: a fresh node with the
list's callback attached. -/
def newItem (v : T) (clean : Bool) : LinkedListItem T :=
  { value := v, before := none, behind := none, unlinkCleanup := clean }

/-- One iteration of the `LinkedList.push(...values)` loop. -/
def pushOne (s : LinkedList T) (v : T) : LinkedList T :=
  let i := s.fresh
  let s0 : LinkedList T :=
    { s with heap := fun j => if j = i then some (newItem v true) else s.heap j, fresh := i + 1 }
  match s0.head, s0.tail with
  | some _, some t =>
    let s1 := insertBehind s0 t i
    { s1 with tail := some i, length := s1.length + 1 }
  | _, _ => { s0 with head := some i, tail := some i, length := s0.length + 1 }

/-- Method `LinkedList.push(...values)`; returns the new state and `this.length`. -/
def push (s : LinkedList T) (vs : List T) : LinkedList T × Int :=
  let s' := vs.foldl pushOne s
  (s', s'.length)

/-- One iteration of the `LinkedList.unshift(...values)` loop. -/
def unshiftOne (s : LinkedList T) (v : T) : LinkedList T :=
  let i := s.fresh
  let s0 : LinkedList T :=
    { s with heap := fun j => if j = i then some (newItem v true) else s.heap j, fresh := i + 1 }
  match s0.tail, s0.head with
  | some _, some h0 =>
    let s1 := insertBehind s0 i h0
    { s1 with head := some i, length := s1.length + 1 }
  | _, _ => { s0 with head := some i, tail := some i, length := s0.length + 1 }

/-- Method `LinkedList.unshift(...values)`; returns the new state and `this.length`. -/
def unshift (s : LinkedList T) (vs : List T) : LinkedList T × Int :=
  let s' := vs.foldl unshiftOne s
  (s', s'.length)

/-- Method `LinkedList.pop()`: unlink the tail item, return its value. -/
def pop (s : LinkedList T) : LinkedList T × Option T :=
  match s.tail with
  | none => (s, none)
  | some t =>
    let s' := unlink s t false
    (s', (s'.heap t).map (·.value))

/-- Method `LinkedList.shift()`: unlink the head item, return its value. -/
def shift (s : LinkedList T) : LinkedList T × Option T :=
  match s.head with
  | none => (s, none)
  | some h0 =>
    let s' := unlink s h0 false
    (s', (s'.heap h0).map (·.value))

/-- The scan of `LinkedList.remove(value)` over `keys()`, with fuel. -/
def removeAux [DecidableEq T] : Nat → LinkedList T → Option Nat → T → LinkedList T × Bool
  | 0, s, _, _ => (s, false)
  | _, s, none, _ => (s, false)
  | fuel + 1, s, some i, v =>
    match s.heap i with
    | none => (s, false)
    | some it =>
      if it.value = v then (unlink s i false, true)
      else removeAux fuel s ((s.heap i).bind (·.behind)) v

/-- Method `LinkedList.remove(value)`: unlink the first strict-equality match. -/
def remove [DecidableEq T] (s : LinkedList T) (v : T) : LinkedList T × Bool :=
  removeAux s.fresh s s.head v

/-- The scan of `LinkedList.removeAllOccurrences(value)`, with fuel.  After an
unlink the traversal continues through the removed node's still-set `behind`
pointer, read from the post-unlink heap, exactly as the generator does. -/
def removeAllAux [DecidableEq T] : Nat → LinkedList T → Option Nat → T → Bool → LinkedList T × Bool
  | 0, s, _, _, found => (s, found)
  | _, s, none, _, found => (s, found)
  | fuel + 1, s, some i, v, found =>
    match s.heap i with
    | none => (s, found)
    | some it =>
      if it.value = v then
        let s1 := unlink s i false
        removeAllAux fuel s1 ((s1.heap i).bind (·.behind)) v true
      else removeAllAux fuel s ((s.heap i).bind (·.behind)) v found

/-- Method `LinkedList.removeAllOccurrences(value)`. -/
def removeAllOccurrences [DecidableEq T] (s : LinkedList T) (v : T) : LinkedList T × Bool :=
  removeAllAux s.fresh s s.head v false

/-- The `while (this.head) this.head.unlink(true)` loop of
`LinkedList.clear(true)`, with fuel. -/
def clearLoop : Nat → LinkedList T → LinkedList T
  | 0, s => s
  | fuel + 1, s =>
    match s.head with
    | none => s
    | some h0 => clearLoop fuel (unlink s h0 true)

/-- Method `LinkedList.clear(unchain)`. -/
def clear (s : LinkedList T) (unchain : Bool) : LinkedList T :=
  let s1 := if unchain then clearLoop s.fresh s else s
  { s1 with head := none, tail := none, length := 0 }

/-- The forward walk `while (current && index--) current = current.behind` of
`LinkedList.getItemByIndex`. -/
def walkF (h : Heap T) : Nat → Option Nat → Option Nat
  | _, none => none
  | 0, some i => some i
  | k + 1, some i => walkF h k ((h i).bind (·.behind))

/-- The backward walk `while (current && ++index) current = current.before` of
`LinkedList.getItemByIndex`. -/
def walkB (h : Heap T) : Nat → Option Nat → Option Nat
  | _, none => none
  | 0, some i => some i
  | k + 1, some i => walkB h k ((h i).bind (·.before))

/-- Method `LinkedList.getItemByIndex(index)`: positive indices walk forward from
head, negative ones backward from tail (`-1` is the tail), `0` is the head. -/
def getItemByIndex (s : LinkedList T) (index : Int) : Option Nat :=
  match s.head with
  | none => none
  | some hd =>
    if index > 0 then walkF s.heap index.toNat (some hd)
    else if index < 0 then walkB s.heap ((-index).toNat - 1) s.tail
    else some hd

/-- The `do/while` fold loop of `LinkedList.reduce`, walking `behind` links;
`.error ()` is fuel exhaustion or a dangling id, both impossible on the
well-formed lists of the theorems below. -/
def foldLoop (h : Heap T) (f : T → T → T) : Nat → T → Nat → Except Unit T
  | 0, _, _ => .error ()
  | fuel + 1, acc, i =>
    match h i with
    | none => .error ()
    | some it =>
      let acc' := f acc it.value
      match it.behind with
      | none => .ok acc'
      | some j => foldLoop h f fuel acc' j

/-- The `do/while` fold loop of `LinkedList.reduceRight`, walking `before`. -/
def foldLoopB (h : Heap T) (f : T → T → T) : Nat → T → Nat → Except Unit T
  | 0, _, _ => .error ()
  | fuel + 1, acc, i =>
    match h i with
    | none => .error ()
    | some it =>
      let acc' := f acc it.value
      match it.before with
      | none => .ok acc'
      | some j => foldLoopB h f fuel acc' j

/-- Method `LinkedList.reduce(callback, initialValue?)`.  `isFalsy` models JavaScript
truthiness of the accumulator type; on an empty list the source throws the
`TypeError` "Empty accumulator on empty LinkedList is not allowed." precisely
when `!initialValue` holds, i.e. when the seed is absent or falsy; this is the
`.error ()` of the empty-list branch. -/
def reduce (isFalsy : T → Bool) (f : T → T → T) (s : LinkedList T) (init : Option T) : Except Unit T :=
  match s.head with
  | none =>
    match init with
    | none => .error ()
    | some v => if isFalsy v then .error () else .ok v
  | some hd =>
    match s.heap hd with
    | none => .error ()
    | some it =>
      match init with
      | some v => foldLoop s.heap f s.fresh v hd
      | none =>
        match it.behind with
        | none => .ok it.value
        | some j => foldLoop s.heap f s.fresh it.value j

/-- Method `LinkedList.reduceRight(callback, initialValue?)`, the tail-to-head
mirror of `reduce`. -/
def reduceRight (isFalsy : T → Bool) (f : T → T → T) (s : LinkedList T) (init : Option T) : Except Unit T :=
  match s.tail with
  | none =>
    match init with
    | none => .error ()
    | some v => if isFalsy v then .error () else .ok v
  | some tl =>
    match s.heap tl with
    | none => .error ()
    | some it =>
      match init with
      | some v => foldLoopB s.heap f s.fresh v tl
      | none =>
        match it.before with
        | none => .ok it.value
        | some j => foldLoopB s.heap f s.fresh it.value j

/-- The empty `LinkedList` (`new LinkedList()`). -/
def emptyList : LinkedList T :=
  { heap := fun _ => none, fresh := 0, head := none, tail := none, length := 0 }

/-- Construction `new LinkedList(values)`: pre-populate by repeated `push`. -/
def fromList (vs : List T) : LinkedList T :=
  (push emptyList vs).1

/-! ### Chain representation -/

/-- The link pointing at the continuation `r` of a chain segment: the first id
of `r`, or `n` when `r` is empty. -/
def linkOf (r : List Nat) (n : Option Nat) : Option Nat :=
  match r with
  | [] => n
  | j :: _ => some j

/-- The link pointing back at the end of a prefix `l`: the last id of `l`, or
`p` when `l` is empty. -/
def lastO (l : List Nat) (p : Option Nat) : Option Nat :=
  match l.getLast? with
  | none => p
  | some e => some e

/-- Boolean chain-segment predicate: the ids in `ids` are allocated and doubly
linked in order, the first node's `before` is `p` and the last node's `behind`
is `n`; with `req` set, every node must also carry the cleanup callback. -/
def segb (h : Heap T) (req : Bool) : Option Nat → List Nat → Option Nat → Bool
  | _, [], _ => true
  | p, i :: rest, n =>
    match h i with
    | none => false
    | some it =>
      it.before == p && (!req || it.unlinkCleanup) && it.behind == linkOf rest n &&
        segb h req (some i) rest n

/-- The list state `s` represents exactly the chain of node ids `ids`. -/
def isChain (s : LinkedList T) (ids : List Nat) : Prop :=
  segb s.heap true none ids none = true ∧
  s.head = ids.head? ∧ s.tail = ids.getLast? ∧ s.length = (ids.length : Int) ∧
  ids.Nodup ∧ ∀ i ∈ ids, i < s.fresh

instance (s : LinkedList T) (ids : List Nat) : Decidable (isChain s ids) := by
  unfold isChain
  infer_instance

/-- A state is well formed when some id list is its chain. -/
def Wf (s : LinkedList T) : Prop :=
  ∃ ids, isChain s ids

/-- The values held by the nodes of `ids`. -/
def chainVals (h : Heap T) (ids : List Nat) : List T :=
  ids.filterMap fun i => (h i).map (·.value)

/-- The value stored at id `j`. -/
def valueAt (s : LinkedList T) (j : Nat) : Option T := (s.heap j).map (·.value)

/-- Swap the two link fields of every node. -/
def mirror (h : Heap T) : Heap T :=
  fun i => (h i).map fun it => { it with before := it.behind, behind := it.before }

/-- The spec invariant: `length = 0` iff both ends are absent; `length = 1`
iff head and tail are the same node; for longer lists head and tail are
distinct and reachable from each other in exactly `length - 1` steps. -/
def Inv (s : LinkedList T) : Prop :=
  (s.length = 0 ↔ s.head = none ∧ s.tail = none) ∧
  (s.length = 1 ↔ ∃ i, s.head = some i ∧ s.tail = some i) ∧
  (1 < s.length →
    s.head ≠ s.tail ∧
    ∃ hd tl, s.head = some hd ∧ s.tail = some tl ∧
      walkF s.heap (s.length - 1).toNat (some hd) = some tl ∧
      walkB s.heap (s.length - 1).toNat (some tl) = some hd)


/-- Closure of the public `LinkedList` operations: construction from a value
sequence, `push`, `unshift`, `pop`, `shift`, `remove`,
`removeAllOccurrences` and `clear`. -/
inductive Reachable [DecidableEq T] : LinkedList T → Prop
  | init (vs : List T) : Reachable (fromList vs)
  | ofPush (s : LinkedList T) (vs : List T) : Reachable s → Reachable (push s vs).1
  | ofUnshift (s : LinkedList T) (vs : List T) : Reachable s → Reachable (unshift s vs).1
  | ofPop (s : LinkedList T) : Reachable s → Reachable (pop s).1
  | ofShift (s : LinkedList T) : Reachable s → Reachable (shift s).1
  | ofRemove (s : LinkedList T) (v : T) : Reachable s → Reachable (remove s v).1
  | ofRemoveAll (s : LinkedList T) (v : T) : Reachable s → Reachable (removeAllOccurrences s v).1
  | ofClear (s : LinkedList T) (u : Bool) : Reachable s → Reachable (clear s u)


/-! ### Basic projection lemmas -/

@[simp] lemma setBehind_head (s : LinkedList T) (i v) : (setBehind s i v).head = s.head := rfl
@[simp] lemma setBehind_tail (s : LinkedList T) (i v) : (setBehind s i v).tail = s.tail := rfl
@[simp] lemma setBehind_length (s : LinkedList T) (i v) : (setBehind s i v).length = s.length := rfl
@[simp] lemma setBehind_fresh (s : LinkedList T) (i v) : (setBehind s i v).fresh = s.fresh := rfl
@[simp] lemma setBefore_head (s : LinkedList T) (i v) : (setBefore s i v).head = s.head := rfl
@[simp] lemma setBefore_tail (s : LinkedList T) (i v) : (setBefore s i v).tail = s.tail := rfl
@[simp] lemma setBefore_length (s : LinkedList T) (i v) : (setBefore s i v).length = s.length := rfl
@[simp] lemma setBefore_fresh (s : LinkedList T) (i v) : (setBefore s i v).fresh = s.fresh := rfl
@[simp] lemma setCleanup_head (s : LinkedList T) (i v) : (setCleanup s i v).head = s.head := rfl
@[simp] lemma setCleanup_tail (s : LinkedList T) (i v) : (setCleanup s i v).tail = s.tail := rfl
@[simp] lemma setCleanup_length (s : LinkedList T) (i v) : (setCleanup s i v).length = s.length := rfl
@[simp] lemma setCleanup_fresh (s : LinkedList T) (i v) : (setCleanup s i v).fresh = s.fresh := rfl
@[simp] lemma insertBefore_head (s : LinkedList T) (a b) : (insertBefore s a b).head = s.head := rfl
@[simp] lemma insertBefore_tail (s : LinkedList T) (a b) : (insertBefore s a b).tail = s.tail := rfl
@[simp] lemma insertBefore_length (s : LinkedList T) (a b) : (insertBefore s a b).length = s.length := rfl
@[simp] lemma insertBefore_fresh (s : LinkedList T) (a b) : (insertBefore s a b).fresh = s.fresh := rfl

lemma setBehind_heap (s : LinkedList T) (i v j) :
    (setBehind s i v).heap j =
      if j = i then (s.heap j).map (fun it => { it with behind := v }) else s.heap j := rfl

lemma setBefore_heap (s : LinkedList T) (i v j) :
    (setBefore s i v).heap j =
      if j = i then (s.heap j).map (fun it => { it with before := v }) else s.heap j := rfl

lemma setCleanup_heap (s : LinkedList T) (i v j) :
    (setCleanup s i v).heap j =
      if j = i then (s.heap j).map (fun it => { it with unlinkCleanup := v }) else s.heap j := rfl

lemma insertBefore_heap (s : LinkedList T) (a b j) :
    (insertBefore s a b).heap j =
      if j = a then
        (s.heap j).map (fun it =>
          { it with before := some b,
                    unlinkCleanup := it.unlinkCleanup || ((s.heap b).map (·.unlinkCleanup)).getD false })
      else s.heap j := rfl

lemma unlinkCleanupFn_heap (s : LinkedList T) (i j) : (unlinkCleanupFn s i).heap j = s.heap j := by
  unfold unlinkCleanupFn
  dsimp only
  split <;> split <;> rfl

lemma unlinkCleanupFn_fresh (s : LinkedList T) (i) : (unlinkCleanupFn s i).fresh = s.fresh := by
  unfold unlinkCleanupFn
  dsimp only
  split <;> split <;> rfl

lemma insertBehindFuel_head (fuel : Nat) (s : LinkedList T) (a b) :
    (insertBehindFuel fuel s a b).head = s.head := by
  induction fuel generalizing s a b with
  | zero => rfl
  | succ fuel ih =>
    rw [insertBehindFuel]
    dsimp only
    split
    · rfl
    · split
      · rfl
      · simp [ih]

lemma insertBehindFuel_tail (fuel : Nat) (s : LinkedList T) (a b) :
    (insertBehindFuel fuel s a b).tail = s.tail := by
  induction fuel generalizing s a b with
  | zero => rfl
  | succ fuel ih =>
    rw [insertBehindFuel]
    dsimp only
    split
    · rfl
    · split
      · rfl
      · simp [ih]

lemma insertBehindFuel_length (fuel : Nat) (s : LinkedList T) (a b) :
    (insertBehindFuel fuel s a b).length = s.length := by
  induction fuel generalizing s a b with
  | zero => rfl
  | succ fuel ih =>
    rw [insertBehindFuel]
    dsimp only
    split
    · rfl
    · split
      · rfl
      · simp [ih]

lemma insertBehindFuel_fresh (fuel : Nat) (s : LinkedList T) (a b) :
    (insertBehindFuel fuel s a b).fresh = s.fresh := by
  induction fuel generalizing s a b with
  | zero => rfl
  | succ fuel ih =>
    rw [insertBehindFuel]
    dsimp only
    split
    · rfl
    · split
      · rfl
      · simp [ih]

/-! ### Segment lemmas -/

@[simp] lemma segb_nil (h : Heap T) (req p n) : segb h req p [] n = true := rfl

lemma segb_cons (h : Heap T) (req : Bool) (p n : Option Nat) (i : Nat) (rest : List Nat) :
    segb h req p (i :: rest) n = true ↔
      ∃ it, h i = some it ∧ it.before = p ∧ (req = true → it.unlinkCleanup = true) ∧
        it.behind = linkOf rest n ∧ segb h req (some i) rest n = true := by
  cases hh : h i with
  | none => simp [segb, hh]
  | some it =>
    simp only [segb, hh, Bool.and_eq_true, beq_iff_eq, Bool.or_eq_true, Bool.not_eq_true']
    constructor
    · rintro ⟨⟨⟨h1, h2⟩, h3⟩, h4⟩
      refine ⟨it, rfl, h1, ?_, h3, h4⟩
      intro hreq
      rcases h2 with h2 | h2
      · simp [hreq] at h2
      · exact h2
    · rintro ⟨it', hit', h1, h2, h3, h4⟩
      injection hit' with he
      subst he
      refine ⟨⟨⟨h1, ?_⟩, h3⟩, h4⟩
      cases req with
      | false => exact Or.inl rfl
      | true => exact Or.inr (h2 rfl)

lemma segb_singleton (h : Heap T) (req : Bool) (p n : Option Nat) (i : Nat) :
    segb h req p [i] n = true ↔
      ∃ it, h i = some it ∧ it.before = p ∧ (req = true → it.unlinkCleanup = true) ∧
        it.behind = n := by
  rw [segb_cons]
  simp [linkOf]

/-- A segment only looks at the heap on its own ids. -/
lemma segb_congr {h h' : Heap T} {req : Bool} {ids : List Nat} {p n : Option Nat}
    (H : ∀ i ∈ ids, h' i = h i) : segb h' req p ids n = segb h req p ids n := by
  induction ids generalizing p with
  | nil => rfl
  | cons i rest ih =>
    have hi : h' i = h i := H i (by simp)
    simp only [segb, hi]
    cases h i with
    | none => rfl
    | some it =>
      have := ih (p := some i) (fun j hj => H j (by simp [hj]))
      simp [this]

lemma lastO_cons (i : Nat) (rest : List Nat) (p : Option Nat) :
    lastO (i :: rest) p = lastO rest (some i) := by
  cases rest with
  | nil => simp [lastO]
  | cons a t =>
    unfold lastO
    rw [List.getLast?_cons_cons]
    cases ht : (a :: t).getLast? with
    | none =>
      rw [List.getLast?_eq_none_iff] at ht
      simp at ht
    | some e => rfl

lemma segb_append (h : Heap T) (req : Bool) (l r : List Nat) (p n : Option Nat) :
    segb h req p (l ++ r) n = true ↔
      segb h req p l (linkOf r n) = true ∧ segb h req (lastO l p) r n = true := by
  induction l generalizing p with
  | nil => simp [lastO]
  | cons i rest ih =>
    rw [List.cons_append, segb_cons, segb_cons, lastO_cons]
    constructor
    · rintro ⟨it, hit, h1, h2, h3, h4⟩
      rw [ih] at h4
      refine ⟨⟨it, hit, h1, h2, ?_, h4.1⟩, h4.2⟩
      cases rest <;> simpa [linkOf] using h3
    · rintro ⟨⟨it, hit, h1, h2, h3, h4⟩, h5⟩
      refine ⟨it, hit, h1, h2, ?_, ?_⟩
      · cases rest <;> simpa [linkOf] using h3
      · rw [ih]
        exact ⟨h4, h5⟩

@[simp] lemma linkOf_none (rest : List Nat) : linkOf rest none = rest.head? := by
  cases rest <;> rfl

/-! ### Mirroring: the backward walk is the forward walk of the mirrored heap -/

lemma walkB_eq_walkF_mirror (h : Heap T) (k : Nat) (c : Option Nat) :
    walkB h k c = walkF (mirror h) k c := by
  induction k generalizing c with
  | zero => cases c <;> rfl
  | succ k ih =>
    cases c with
    | none => rfl
    | some i =>
      rw [walkB, walkF, ih]
      congr 1
      cases hh : h i <;> simp [mirror, hh]

lemma lastO_reverse (rest : List Nat) (n : Option Nat) : lastO rest.reverse n = linkOf rest n := by
  cases rest with
  | nil => simp [lastO, linkOf]
  | cons a t =>
    unfold lastO linkOf
    rw [List.getLast?_reverse]
    rfl

lemma segb_mirror {h : Heap T} {req : Bool} {p n : Option Nat} {ids : List Nat}
    (hseg : segb h req p ids n = true) : segb (mirror h) req n ids.reverse p = true := by
  induction ids generalizing p with
  | nil => simp
  | cons i rest ih =>
    rw [segb_cons] at hseg
    obtain ⟨it, hit, h1, h2, h3, h4⟩ := hseg
    rw [List.reverse_cons, segb_append]
    refine ⟨ih h4, ?_⟩
    rw [segb_singleton, lastO_reverse]
    refine ⟨{ it with before := it.behind, behind := it.before }, by simp [mirror, hit], ?_, fun hr => h2 hr, ?_⟩
    · simpa using h3
    · simpa using h1

/-! ### Walk lemmas along a chain -/

lemma segb_walkF {h : Heap T} {req : Bool} :
    ∀ (ids : List Nat) (p : Option Nat), segb h req p ids none = true →
      ∀ k, walkF h k ids.head? = ids[k]? := by
  intro ids
  induction ids with
  | nil =>
    intro p _ k
    cases k <;> simp [walkF]
  | cons i rest ih =>
    intro p hseg k
    rw [segb_cons] at hseg
    obtain ⟨it, hit, h1, h2, h3, h4⟩ := hseg
    cases k with
    | zero => simp [walkF]
    | succ k =>
      have hstep : walkF h (k + 1) (some i) = walkF h k rest.head? := by
        rw [walkF]
        congr 1
        rw [hit]
        simpa using h3
      simp only [List.head?_cons, List.getElem?_cons_succ]
      rw [hstep, ih (some i) h4 k]

lemma segb_walkB {h : Heap T} {req : Bool} {ids : List Nat} {n : Option Nat}
    (hseg : segb h req none ids n = true) :
    ∀ k, walkB h k ids.getLast? = ids.reverse[k]? := by
  intro k
  have hm := segb_mirror hseg
  rw [walkB_eq_walkF_mirror, ← List.head?_reverse]
  exact segb_walkF ids.reverse n hm k

/-! ### Surgical updates of a segment -/

/-- Replace the first node of a segment by an update that keeps its `behind`
link (and, when required, its cleanup flag) but rewires its `before` link. -/
lemma segb_update_first {h h' : Heap T} {req : Bool} {i : Nat} {rest : List Nat}
    {p p' n : Option Nat} (f : LinkedListItem T → LinkedListItem T)
    (hseg : segb h req p (i :: rest) n = true)
    (hi' : h' i = (h i).map f)
    (hfbehind : ∀ it, (f it).behind = it.behind)
    (hfbefore : ∀ it, (f it).before = p')
    (hfclean : ∀ it, it.unlinkCleanup = true → (f it).unlinkCleanup = true)
    (hrest : ∀ j ∈ rest, h' j = h j) :
    segb h' req p' (i :: rest) n = true := by
  rw [segb_cons] at hseg ⊢
  obtain ⟨it, hit, h1, h2, h3, h4⟩ := hseg
  refine ⟨f it, by rw [hi', hit]; rfl, hfbefore it, ?_, by rw [hfbehind]; exact h3, ?_⟩
  · intro hreq
    exact hfclean it (h2 hreq)
  · rw [segb_congr hrest]
    exact h4

/-- Replace the last node of a segment by an update that keeps its `before`
link (and, when required, its cleanup flag) but rewires its `behind` link. -/
lemma segb_update_last {h h' : Heap T} {req : Bool} {l : List Nat} {e : Nat}
    {p n n' : Option Nat} (f : LinkedListItem T → LinkedListItem T)
    (hl : l.getLast? = some e) (hnd : l.Nodup)
    (hseg : segb h req p l n = true)
    (he' : h' e = (h e).map f)
    (hfbefore : ∀ it, (f it).before = it.before)
    (hfbehind : ∀ it, (f it).behind = n')
    (hfclean : ∀ it, it.unlinkCleanup = true → (f it).unlinkCleanup = true)
    (hothers : ∀ j ∈ l, j ≠ e → h' j = h j) :
    segb h' req p l n' = true := by
  have hsplit : l.dropLast ++ [e] = l := List.dropLast_append_getLast? e hl
  have hmem : e ∉ l.dropLast := by
    have := hsplit ▸ hnd
    rcases List.nodup_append.mp this with ⟨-, -, hdisj⟩
    intro hcon
    exact hdisj hcon (by simp)
  rw [← hsplit, segb_append] at hseg ⊢
  obtain ⟨hfirst, hlast⟩ := hseg
  constructor
  · rw [segb_congr (fun j hj => hothers j (by rw [← hsplit]; exact List.mem_append_left _ hj)
      (fun hje => hmem (hje ▸ hj)))]
    simpa [linkOf] using hfirst
  · rw [segb_singleton] at hlast ⊢
    obtain ⟨it, hit, k1, k2, _⟩ := hlast
    refine ⟨f it, by rw [he', hit]; rfl, by rw [hfbefore]; exact k1, ?_, hfbehind it⟩
    intro hreq
    exact hfclean it (k2 hreq)

/-! ### List bookkeeping helpers -/

lemma headq_append_cons (l : List Nat) (i : Nat) (r : List Nat) :
    (l ++ i :: r).head? = linkOf l (some i) := by
  cases l <;> rfl

lemma headq_append (l r : List Nat) : (l ++ r).head? = linkOf l r.head? := by
  cases l <;> rfl

lemma lastO_concat (L : List Nat) (e : Nat) (p : Option Nat) : lastO (L ++ [e]) p = some e := by
  unfold lastO
  rw [List.getLast?_concat]

lemma getLastq_cons (i : Nat) (r : List Nat) : (i :: r).getLast? = lastO r (some i) := by
  cases r with
  | nil => rfl
  | cons a t =>
    rw [List.getLast?_cons_cons]
    unfold lastO
    cases ht : (a :: t).getLast? with
    | none =>
      rw [List.getLast?_eq_none_iff] at ht
      simp at ht
    | some e => rfl

lemma getLastq_append (l r : List Nat) : (l ++ r).getLast? = lastO r l.getLast? := by
  rw [List.getLast?_append]
  unfold lastO
  cases r.getLast? <;> rfl

/-- A nodup list of ids all below `m` has length at most `m`. -/
lemma length_le_of_nodup_lt {ids : List Nat} {m : Nat} (hnd : ids.Nodup)
    (hb : ∀ i ∈ ids, i < m) : ids.length ≤ m := by
  classical
  have h1 : ids.toFinset ⊆ Finset.range m := by
    intro i hi
    rw [List.mem_toFinset] at hi
    exact Finset.mem_range.mpr (hb i hi)
  have h2 := Finset.card_le_card h1
  rw [Finset.card_range] at h2
  rw [← List.toFinset_card_of_nodup hnd]
  exact h2

/-! ### Value and fresh-counter frames -/

lemma valueAt_setBehind (s : LinkedList T) (i v j) : valueAt (setBehind s i v) j = valueAt s j := by
  unfold valueAt
  rw [setBehind_heap]
  split
  · cases s.heap j <;> rfl
  · rfl

lemma valueAt_setBefore (s : LinkedList T) (i v j) : valueAt (setBefore s i v) j = valueAt s j := by
  unfold valueAt
  rw [setBefore_heap]
  split
  · cases s.heap j <;> rfl
  · rfl

lemma valueAt_setCleanup (s : LinkedList T) (i v j) : valueAt (setCleanup s i v) j = valueAt s j := by
  unfold valueAt
  rw [setCleanup_heap]
  split
  · cases s.heap j <;> rfl
  · rfl

lemma valueAt_insertBefore (s : LinkedList T) (a b j) : valueAt (insertBefore s a b) j = valueAt s j := by
  unfold valueAt
  rw [insertBefore_heap]
  split
  · cases s.heap j <;> rfl
  · rfl

lemma valueAt_unlinkCleanupFn (s : LinkedList T) (i j) : valueAt (unlinkCleanupFn s i) j = valueAt s j := by
  unfold valueAt
  rw [unlinkCleanupFn_heap]

lemma valueAt_unlink (s : LinkedList T) (i : Nat) (u : Bool) (j : Nat) :
    valueAt (unlink s i u) j = valueAt s j := by
  unfold unlink
  cases hsi : s.heap i with
  | none => rfl
  | some it =>
    dsimp only
    cases it.before <;> cases it.behind <;> cases it.unlinkCleanup <;> cases u <;>
      simp [valueAt_setBehind, valueAt_setBefore, valueAt_setCleanup, valueAt_unlinkCleanupFn]

lemma unlink_fresh (s : LinkedList T) (i : Nat) (u : Bool) : (unlink s i u).fresh = s.fresh := by
  unfold unlink
  cases hsi : s.heap i with
  | none => rfl
  | some it =>
    dsimp only
    cases it.before <;> cases it.behind <;> cases it.unlinkCleanup <;> cases u <;>
      simp [unlinkCleanupFn_fresh]

/-! ### Pointwise description of `unlink` -/

section UnlinkFacts

variable {s : LinkedList T} {i : Nat} {it : LinkedListItem T}

lemma lastO_none (l : List Nat) : lastO l none = l.getLast? := by
  unfold lastO
  cases l.getLast? <;> rfl

/-- A node not adjacent to `i` (and distinct from it) is untouched by `unlink`. -/
lemma unlink_heap_other (hit : s.heap i = some it) (x : Nat) (hxi : x ≠ i)
    (hbx : it.before ≠ some x) (hhx : it.behind ≠ some x) (u : Bool) :
    (unlink s i u).heap x = s.heap x := by
  have hxi' : ¬ (x = i) := hxi
  unfold unlink
  rw [hit]
  dsimp only
  cases hb : it.before with
  | none =>
    cases hh : it.behind with
    | none =>
      cases u <;>
        simp [setBehind_heap, setBefore_heap, setCleanup_heap, unlinkCleanupFn_heap, hxi',
          apply_ite (fun t : LinkedList T => t.heap x)]
    | some j =>
      have hxj : ¬ (x = j) := fun hc => hhx (by rw [hh, hc])
      cases u <;>
        simp [setBehind_heap, setBefore_heap, setCleanup_heap, unlinkCleanupFn_heap, hxi', hxj,
          apply_ite (fun t : LinkedList T => t.heap x)]
  | some p =>
    have hxp : ¬ (x = p) := fun hc => hbx (by rw [hb, hc])
    cases hh : it.behind with
    | none =>
      cases u <;>
        simp [setBehind_heap, setBefore_heap, setCleanup_heap, unlinkCleanupFn_heap, hxi', hxp,
          apply_ite (fun t : LinkedList T => t.heap x)]
    | some j =>
      have hxj : ¬ (x = j) := fun hc => hhx (by rw [hh, hc])
      cases u <;>
        simp [setBehind_heap, setBefore_heap, setCleanup_heap, unlinkCleanupFn_heap, hxi', hxp, hxj,
          apply_ite (fun t : LinkedList T => t.heap x)]

lemma unlinkCleanupFn_head (s : LinkedList T) (i : Nat) :
    (unlinkCleanupFn s i).head = if s.head = some i then (s.heap i).bind (·.behind) else s.head := by
  unfold unlinkCleanupFn
  dsimp only
  split <;> split <;> rfl

lemma unlinkCleanupFn_tail (s : LinkedList T) (i : Nat) :
    (unlinkCleanupFn s i).tail = if s.tail = some i then (s.heap i).bind (·.before) else s.tail := by
  unfold unlinkCleanupFn
  dsimp only
  split <;> split <;> rfl

lemma unlinkCleanupFn_length (s : LinkedList T) (i : Nat) :
    (unlinkCleanupFn s i).length = s.length - 1 := by
  unfold unlinkCleanupFn
  dsimp only
  split <;> split <;> rfl

/-- After `unlink(false)`, the node itself keeps its links; only the callback
reference is cleared. -/
lemma unlink_heap_self_false (hit : s.heap i = some it)
    (hbi : it.before ≠ some i) (hbhi : it.behind ≠ some i) :
    (unlink s i false).heap i = some { it with unlinkCleanup := false } := by
  unfold unlink
  rw [hit]
  dsimp only
  cases hb : it.before with
  | none =>
    cases hh : it.behind with
    | none =>
      simp [setBehind_heap, setBefore_heap, setCleanup_heap, unlinkCleanupFn_heap, hit, hb, hh,
        apply_ite (fun t : LinkedList T => t.heap i)]
    | some j =>
      have hij : ¬ (i = j) := fun hc => hbhi (by rw [hh, hc])
      simp [setBehind_heap, setBefore_heap, setCleanup_heap, unlinkCleanupFn_heap, hit, hij, hb, hh,
        apply_ite (fun t : LinkedList T => t.heap i)]
  | some p =>
    have hip : ¬ (i = p) := fun hc => hbi (by rw [hb, hc])
    cases hh : it.behind with
    | none =>
      simp [setBehind_heap, setBefore_heap, setCleanup_heap, unlinkCleanupFn_heap, hit, hip, hb, hh,
        apply_ite (fun t : LinkedList T => t.heap i)]
    | some j =>
      have hij : ¬ (i = j) := fun hc => hbhi (by rw [hh, hc])
      simp [setBehind_heap, setBefore_heap, setCleanup_heap, unlinkCleanupFn_heap, hit, hip, hij, hb, hh,
        apply_ite (fun t : LinkedList T => t.heap i)]

/-- After `unlink(true)`, the node's own links are additionally cleared. -/
lemma unlink_heap_self_true (hit : s.heap i = some it)
    (hbi : it.before ≠ some i) (hbhi : it.behind ≠ some i) :
    (unlink s i true).heap i
      = some { it with before := none, behind := none, unlinkCleanup := false } := by
  unfold unlink
  rw [hit]
  dsimp only
  cases hb : it.before with
  | none =>
    cases hh : it.behind with
    | none =>
      simp [setBehind_heap, setBefore_heap, setCleanup_heap, unlinkCleanupFn_heap, hit, hb, hh,
        apply_ite (fun t : LinkedList T => t.heap i)]
    | some j =>
      have hij : ¬ (i = j) := fun hc => hbhi (by rw [hh, hc])
      simp [setBehind_heap, setBefore_heap, setCleanup_heap, unlinkCleanupFn_heap, hit, hij, hb, hh,
        apply_ite (fun t : LinkedList T => t.heap i)]
  | some p =>
    have hip : ¬ (i = p) := fun hc => hbi (by rw [hb, hc])
    cases hh : it.behind with
    | none =>
      simp [setBehind_heap, setBefore_heap, setCleanup_heap, unlinkCleanupFn_heap, hit, hip, hb, hh,
        apply_ite (fun t : LinkedList T => t.heap i)]
    | some j =>
      have hij : ¬ (i = j) := fun hc => hbhi (by rw [hh, hc])
      simp [setBehind_heap, setBefore_heap, setCleanup_heap, unlinkCleanupFn_heap, hit, hip, hij, hb, hh,
        apply_ite (fun t : LinkedList T => t.heap i)]

/-- The predecessor gets its `behind` link redirected to the unlinked node's
`behind`. -/
lemma unlink_heap_before_target (hit : s.heap i = some it) (e : Nat)
    (hbe : it.before = some e) (hei : e ≠ i) (hhe : it.behind ≠ some e) (u : Bool) :
    (unlink s i u).heap e = (s.heap e).map (fun x => { x with behind := it.behind }) := by
  have hei' : ¬ (e = i) := hei
  unfold unlink
  rw [hit]
  dsimp only
  rw [hbe]
  dsimp only
  cases hh : it.behind with
  | none =>
    cases u <;>
      simp [setBehind_heap, setBefore_heap, setCleanup_heap, unlinkCleanupFn_heap, hei',
        apply_ite (fun t : LinkedList T => t.heap e)]
  | some j =>
    have hej : ¬ (e = j) := fun hc => hhe (by rw [hh, hc])
    cases u <;>
      simp [setBehind_heap, setBefore_heap, setCleanup_heap, unlinkCleanupFn_heap, hei', hej,
        apply_ite (fun t : LinkedList T => t.heap e)]

/-- The successor gets its `before` link redirected to the unlinked node's
`before`. -/
lemma unlink_heap_behind_target (hit : s.heap i = some it) (j : Nat)
    (hbj : it.behind = some j) (hji : j ≠ i) (hbj' : it.before ≠ some j) (u : Bool) :
    (unlink s i u).heap j = (s.heap j).map (fun x => { x with before := it.before }) := by
  have hji' : ¬ (j = i) := hji
  unfold unlink
  rw [hit]
  dsimp only
  rw [hbj]
  dsimp only
  cases hb : it.before with
  | none =>
    cases u <;>
      simp [setBehind_heap, setBefore_heap, setCleanup_heap, unlinkCleanupFn_heap, hji',
        apply_ite (fun t : LinkedList T => t.heap j)]
  | some p =>
    have hjp : ¬ (j = p) := fun hc => hbj' (by rw [hb, hc])
    cases u <;>
      simp [setBehind_heap, setBefore_heap, setCleanup_heap, unlinkCleanupFn_heap, hji', hjp,
        apply_ite (fun t : LinkedList T => t.heap j)]

/-- With the callback attached, `unlink` advances `head` past the node iff the
node was the head. -/
lemma unlink_head_clean (hit : s.heap i = some it) (hcl : it.unlinkCleanup = true)
    (hbi : it.before ≠ some i) (hbhi : it.behind ≠ some i) (u : Bool) :
    (unlink s i u).head = if s.head = some i then it.behind else s.head := by
  unfold unlink
  rw [hit]
  dsimp only
  rw [hcl]
  cases hb : it.before with
  | none =>
    cases hh : it.behind with
    | none =>
      cases u <;> simp [unlinkCleanupFn_head, hit, hb, hh]
    | some j =>
      have hij : ¬ (i = j) := fun hc => hbhi (by rw [hh, hc])
      cases u <;>
        simp [unlinkCleanupFn_head, setBefore_heap, hit, hij, hh, hb]
  | some p =>
    have hip : ¬ (i = p) := fun hc => hbi (by rw [hb, hc])
    cases hh : it.behind with
    | none =>
      cases u <;> simp [unlinkCleanupFn_head, setBehind_heap, hit, hip, hb, hh]
    | some j =>
      have hij : ¬ (i = j) := fun hc => hbhi (by rw [hh, hc])
      cases u <;>
        simp [unlinkCleanupFn_head, setBehind_heap, setBefore_heap, hit, hip, hij, hh, hb]

/-- With the callback attached, `unlink` retreats `tail` past the node iff the
node was the tail. -/
lemma unlink_tail_clean (hit : s.heap i = some it) (hcl : it.unlinkCleanup = true)
    (hbi : it.before ≠ some i) (hbhi : it.behind ≠ some i) (u : Bool) :
    (unlink s i u).tail = if s.tail = some i then it.before else s.tail := by
  unfold unlink
  rw [hit]
  dsimp only
  rw [hcl]
  cases hb : it.before with
  | none =>
    cases hh : it.behind with
    | none =>
      cases u <;> simp [unlinkCleanupFn_tail, hit, hb, hh]
    | some j =>
      have hij : ¬ (i = j) := fun hc => hbhi (by rw [hh, hc])
      cases u <;>
        simp [unlinkCleanupFn_tail, setBefore_heap, hit, hij, hb, hh]
  | some p =>
    have hip : ¬ (i = p) := fun hc => hbi (by rw [hb, hc])
    cases hh : it.behind with
    | none =>
      cases u <;> simp [unlinkCleanupFn_tail, setBehind_heap, hit, hip, hb, hh]
    | some j =>
      have hij : ¬ (i = j) := fun hc => hbhi (by rw [hh, hc])
      cases u <;>
        simp [unlinkCleanupFn_tail, setBehind_heap, setBefore_heap, hit, hip, hij, hb, hh]

/-- With the callback attached, `unlink` decrements `length`. -/
lemma unlink_length_clean (hit : s.heap i = some it) (hcl : it.unlinkCleanup = true) (u : Bool) :
    (unlink s i u).length = s.length - 1 := by
  unfold unlink
  rw [hit]
  dsimp only
  rw [hcl]
  cases hb : it.before <;> cases hh : it.behind <;> cases u <;>
    simp [unlinkCleanupFn_length]

/-- Without the callback, `unlink` leaves `length` (and `head`, `tail`)
untouched. -/
lemma unlink_length_notclean (hit : s.heap i = some it) (hcl : it.unlinkCleanup = false) (u : Bool) :
    (unlink s i u).length = s.length := by
  unfold unlink
  rw [hit]
  dsimp only
  rw [hcl]
  cases hb : it.before <;> cases hh : it.behind <;> cases u <;> simp

end UnlinkFacts

/-! ### Unlinking a node of a chain -/

/-- Unlinking a chain node (non-detaching) yields the same list with that node
removed; the removed node still points at its old successor. -/
lemma unlink_chain {s : LinkedList T} {l r : List Nat} {i : Nat}
    (hc : isChain s (l ++ i :: r)) :
    isChain (unlink s i false) (l ++ r) ∧
    ((unlink s i false).heap i).bind (·.behind) = r.head? := by
  obtain ⟨hseg, hhead, htail, hlen, hnd, hfr⟩ := hc
  rw [segb_append] at hseg
  obtain ⟨seg1, seg2⟩ := hseg
  have seg1' : segb s.heap true none l (some i) = true := seg1
  rw [segb_cons] at seg2
  obtain ⟨it, hit, hbef, hcln, hbeh, seg3⟩ := seg2
  have hcln' : it.unlinkCleanup = true := hcln rfl
  rw [List.nodup_append] at hnd
  obtain ⟨hndl, hndir, hdisj⟩ := hnd
  rw [List.nodup_cons] at hndir
  obtain ⟨hir, hndr⟩ := hndir
  have hil : i ∉ l := fun hmem => hdisj hmem (by simp)
  have hbef' : it.before = l.getLast? := by rw [hbef, lastO_none]
  have hbeh' : it.behind = r.head? := by rw [hbeh, linkOf_none]
  have hbefmem : ∀ y, it.before = some y → y ∈ l := by
    intro y hy
    rw [hbef'] at hy
    have hsplit := List.dropLast_append_getLast? y hy
    rw [← hsplit]
    simp
  have hbehmem : ∀ y, it.behind = some y → y ∈ r := by
    intro y hy
    rw [hbeh'] at hy
    cases r with
    | nil => cases hy
    | cons a t =>
      rw [List.head?_cons, Option.some.injEq] at hy
      subst hy
      simp
  have hbi : it.before ≠ some i := fun hc' => hil (hbefmem i hc')
  have hbhi : it.behind ≠ some i := fun hc' => hir (hbehmem i hc')
  have hbne : ∀ y, it.before = some y → it.behind ≠ some y :=
    fun y hy hz => hdisj (hbefmem y hy) (List.mem_cons_of_mem _ (hbehmem y hz))
  have Hother : ∀ x, x ≠ i → it.before ≠ some x → it.behind ≠ some x →
      (unlink s i false).heap x = s.heap x :=
    fun x h1 h2 h3 => unlink_heap_other hit x h1 h2 h3 false
  have Hi : (unlink s i false).heap i = some { it with unlinkCleanup := false } :=
    unlink_heap_self_false hit hbi hbhi
  refine ⟨⟨?_, ?_, ?_, ?_, ?_, ?_⟩, ?_⟩
  · -- the remaining ids still form a segment
    rw [segb_append]
    constructor
    · -- prefix: the old predecessor of `i` now points at `i`'s old successor
      cases hl : l.getLast? with
      | none =>
        rw [List.getLast?_eq_none_iff] at hl
        subst hl
        simp
      | some e =>
        have hbefe : it.before = some e := by rw [hbef', hl]
        have hel : e ∈ l := hbefmem e hbefe
        have hei : e ≠ i := fun h => hil (h ▸ hel)
        refine segb_update_last (fun x => { x with behind := linkOf r none }) hl hndl seg1'
          ?_ (fun _ => rfl) (fun _ => rfl) (fun _ h => h) ?_
        · rw [unlink_heap_before_target hit e hbefe hei (hbne e hbefe) false, hbeh]
        · intro x hx hxe
          refine Hother x (fun h => hil (h ▸ hx)) ?_ ?_
          · intro hy
            rw [hbefe, Option.some.injEq] at hy
            exact hxe hy.symm
          · exact fun hz => hdisj hx (List.mem_cons_of_mem _ (hbehmem x hz))
    · -- suffix: the old successor of `i` now points back at `i`'s old predecessor
      cases r with
      | nil => simp
      | cons j r' =>
        have hbehj : it.behind = some j := by rw [hbeh']; rfl
        have hjr : j ∈ j :: r' := by simp
        have hji : j ≠ i := fun h => hir (h ▸ hjr)
        refine segb_update_first (fun x => { x with before := lastO l none }) seg3
          ?_ (fun _ => rfl) (fun _ => rfl) (fun _ h => h) ?_
        · rw [unlink_heap_behind_target hit j hbehj hji
            (fun hy => hdisj (hbefmem j hy) (List.mem_cons_of_mem _ hjr)) false, hbef]
        · intro x hx
          have hxr : x ∈ j :: r' := List.mem_cons_of_mem _ hx
          refine Hother x (fun h => hir (h ▸ hxr)) ?_ ?_
          · exact fun hy => hdisj (hbefmem x hy) (List.mem_cons_of_mem _ hxr)
          · intro hz
            rw [hbehj, Option.some.injEq] at hz
            subst hz
            exact (List.nodup_cons.mp hndr).1 hx
  · -- head
    rw [unlink_head_clean hit hcln' hbi hbhi false, hhead, headq_append_cons, headq_append]
    cases l with
    | nil => simpa [linkOf] using hbeh'
    | cons a l'' =>
      have hai : ¬ (some a = some i) := by
        simp only [Option.some.injEq]
        exact fun h => hil (h ▸ List.mem_cons_self a l'')
      simp [linkOf, hai]
  · -- tail
    rw [unlink_tail_clean hit hcln' hbi hbhi false, htail, getLastq_append, lastO_cons,
      getLastq_append]
    cases hr : r.getLast? with
    | none =>
      simp only [lastO, hr, if_pos]
      exact hbef'
    | some z =>
      have hzr : z ∈ r := by
        have hsplit := List.dropLast_append_getLast? z hr
        rw [← hsplit]
        simp
      have hzi : ¬ (some z = some i) := by
        simp only [Option.some.injEq]
        exact fun h => hir (h ▸ hzr)
      simp [lastO, hr, hzi]
  · -- length
    rw [unlink_length_clean hit hcln' false, hlen]
    simp only [List.length_append, List.length_cons]
    push_cast
    omega
  · -- nodup
    rw [List.nodup_append]
    exact ⟨hndl, hndr, fun a ha har => hdisj ha (List.mem_cons_of_mem _ har)⟩
  · -- fresh bound
    rw [unlink_fresh]
    intro x hx
    rcases List.mem_append.mp hx with hxl | hxr
    · exact hfr x (List.mem_append_left _ hxl)
    · exact hfr x (List.mem_append_right _ (List.mem_cons_of_mem _ hxr))
  · -- the unlinked node still points at the old successor
    rw [Hi]
    simpa using hbeh'

/-! ### `push` and `unshift` -/

/-- One unfolding of `insertBehind` when the target node has no successor:
only the single link is spliced. -/
lemma insertBehindFuel_of_behind_none {s : LinkedList T} {self item : Nat} (fuel : Nat)
    (hne : self ≠ item) (hbeh : (s.heap self).bind (·.behind) = none) :
    insertBehindFuel (fuel + 1) s self item = setBehind (insertBefore s item self) self (some item) := by
  have h1 : (insertBefore s item self).heap self = s.heap self := by
    rw [insertBefore_heap]
    simp [hne]
  simp only [insertBehindFuel]
  rw [h1, hbeh]

lemma insertBehind_simple {s : LinkedList T} {self item : Nat}
    (hne : self ≠ item) (hbeh : (s.heap self).bind (·.behind) = none) :
    insertBehind s self item = setBehind (insertBefore s item self) self (some item) :=
  insertBehindFuel_of_behind_none (s.fresh + 1) hne hbeh

/-- Reduction of `pushOne` on a nonempty list to its primitive writes. -/
lemma pushOne_eq_of_nonempty {s : LinkedList T} {a t : Nat} {itT : LinkedListItem T} (v : T)
    (hhead : s.head = some a) (htail : s.tail = some t) (hti : t ≠ s.fresh)
    (hitT : s.heap t = some itT) (hbehT : itT.behind = none) :
    pushOne s v =
      { setBehind (insertBefore
          { s with heap := fun j => if j = s.fresh then some (newItem v true) else s.heap j,
                   fresh := s.fresh + 1 } s.fresh t) t (some s.fresh) with
        tail := some s.fresh, length := s.length + 1 } := by
  unfold pushOne
  dsimp only
  rw [hhead, htail]
  dsimp only
  rw [insertBehind_simple hti (by dsimp only; simp [hti, hitT, hbehT])]
  simp

/-- Reduction of `unshiftOne` on a nonempty list to its primitive writes. -/
lemma unshiftOne_eq_of_nonempty {s : LinkedList T} {a t : Nat} (v : T)
    (hhead : s.head = some a) (htail : s.tail = some t) (hai : s.fresh ≠ a) :
    unshiftOne s v =
      { setBehind (insertBefore
          { s with heap := fun j => if j = s.fresh then some (newItem v true) else s.heap j,
                   fresh := s.fresh + 1 } a s.fresh) s.fresh (some a) with
        head := some s.fresh, length := s.length + 1 } := by
  unfold unshiftOne
  dsimp only
  rw [hhead, htail]
  dsimp only
  rw [insertBehind_simple hai (by dsimp only; simp [newItem])]
  simp

/-- Pushing one value appends a fresh node at the tail. -/
lemma pushOne_chain {s : LinkedList T} {ids : List Nat} (hc : isChain s ids) (v : T) :
    isChain (pushOne s v) (ids ++ [s.fresh]) ∧
    valueAt (pushOne s v) s.fresh = some v ∧
    (∀ j, j ≠ s.fresh → valueAt (pushOne s v) j = valueAt s j) ∧
    (pushOne s v).fresh = s.fresh + 1 := by
  obtain ⟨hseg, hhead, htail, hlen, hnd, hfr⟩ := hc
  have hfni : s.fresh ∉ ids := fun h => lt_irrefl _ (hfr _ h)
  cases ids with
  | nil =>
    rw [List.head?_nil] at hhead
    have hpush : pushOne s v =
        { s with heap := fun j => if j = s.fresh then some (newItem v true) else s.heap j,
                 fresh := s.fresh + 1, head := some s.fresh, tail := some s.fresh,
                 length := s.length + 1 } := by
      unfold pushOne
      dsimp only
      rw [hhead]
    rw [List.getLast?_nil] at htail
    rw [List.length_nil] at hlen
    refine ⟨⟨?_, ?_, ?_, ?_, ?_, ?_⟩, ?_, ?_, ?_⟩
    · rw [hpush, List.nil_append, segb_singleton]
      exact ⟨newItem v true, by simp, rfl, fun _ => rfl, rfl⟩
    · rw [hpush]
      rfl
    · rw [hpush]
      rfl
    · rw [hpush]
      dsimp only
      rw [hlen]
      simp
    · simp
    · rw [hpush]
      intro x hx
      simp only [List.nil_append, List.mem_singleton] at hx
      subst hx
      dsimp only
      omega
    · rw [hpush]
      unfold valueAt
      simp [newItem]
    · intro j hj
      rw [hpush]
      unfold valueAt
      simp [hj]
    · rw [hpush]
  | cons a rest =>
    rw [List.head?_cons] at hhead
    obtain ⟨t, ht⟩ : ∃ t, (a :: rest).getLast? = some t :=
      ⟨_, List.getLast?_eq_getLast_of_ne_nil (by simp)⟩
    have htmem : t ∈ a :: rest := by
      rw [← List.dropLast_append_getLast? t ht]
      simp
    have hti : t ≠ s.fresh := fun h => hfni (h ▸ htmem)
    have htail' : s.tail = some t := by rw [htail, ht]
    obtain ⟨itT, hitT, hbehT⟩ : ∃ itT, s.heap t = some itT ∧ itT.behind = none := by
      have hsplit := List.dropLast_append_getLast? t ht
      rw [← hsplit, segb_append] at hseg
      obtain ⟨-, hlastseg⟩ := hseg
      rw [segb_singleton] at hlastseg
      obtain ⟨itT, h1, -, -, h4⟩ := hlastseg
      exact ⟨itT, h1, by simpa [linkOf] using h4⟩
    have hsegA : segb s.heap true none (a :: rest) none = true := by
      have hsplit := List.dropLast_append_getLast? t ht
      exact hseg
    have hpush := pushOne_eq_of_nonempty v hhead htail' hti hitT hbehT
    have hheap : ∀ x, x ≠ s.fresh → x ≠ t → (pushOne s v).heap x = s.heap x := by
      intro x h1 h2
      rw [hpush]
      dsimp only
      rw [setBehind_heap, insertBefore_heap]
      simp [h1, h2]
    have hheapT : (pushOne s v).heap t = (s.heap t).map (fun x => { x with behind := some s.fresh }) := by
      rw [hpush]
      dsimp only
      rw [setBehind_heap, insertBefore_heap]
      simp [hti]
    have hheapF : (pushOne s v).heap s.fresh
        = some { value := v, before := some t, behind := none, unlinkCleanup := true } := by
      rw [hpush]
      dsimp only
      rw [setBehind_heap, insertBefore_heap]
      simp [Ne.symm hti, newItem]
    refine ⟨⟨?_, ?_, ?_, ?_, ?_, ?_⟩, ?_, ?_, ?_⟩
    · rw [segb_append]
      constructor
      · refine segb_update_last (fun x => { x with behind := some s.fresh }) ht hnd hsegA
          hheapT (fun _ => rfl) (fun _ => rfl) (fun _ h => h) ?_
        · intro x hx hxt
          exact hheap x (fun h => hfni (h ▸ hx)) hxt
      · rw [segb_singleton]
        refine ⟨_, hheapF, ?_, fun _ => rfl, rfl⟩
        rw [lastO_none, ht]
    · rw [hpush]
      dsimp only
      rw [setBehind_head, insertBefore_head]
      dsimp only
      rw [hhead, headq_append]
      rfl
    · rw [hpush]
      dsimp only
      rw [List.getLast?_concat]
    · rw [hpush]
      dsimp only
      rw [hlen]
      simp [List.length_append]
    · rw [List.nodup_append]
      exact ⟨hnd, List.nodup_singleton _, fun x hx hx' => hfni ((List.mem_singleton.mp hx') ▸ hx)⟩
    · intro x hx
      rw [hpush]
      dsimp only
      rcases List.mem_append.mp hx with h | h
      · exact Nat.lt_succ_of_lt (hfr x h)
      · rw [List.mem_singleton] at h
        subst h
        exact Nat.lt_succ_self _
    · unfold valueAt
      rw [hheapF]
      rfl
    · intro j hj
      unfold valueAt
      by_cases hjt : j = t
      · subst hjt
        rw [hheapT]
        cases s.heap j <;> rfl
      · rw [hheap j hj hjt]
    · rw [hpush]
      rfl

/-- Unshifting one value prepends a fresh node at the head. -/
lemma unshiftOne_chain {s : LinkedList T} {ids : List Nat} (hc : isChain s ids) (v : T) :
    isChain (unshiftOne s v) (s.fresh :: ids) ∧
    valueAt (unshiftOne s v) s.fresh = some v ∧
    (∀ j, j ≠ s.fresh → valueAt (unshiftOne s v) j = valueAt s j) ∧
    (unshiftOne s v).fresh = s.fresh + 1 := by
  obtain ⟨hseg, hhead, htail, hlen, hnd, hfr⟩ := hc
  have hfni : s.fresh ∉ ids := fun h => lt_irrefl _ (hfr _ h)
  cases ids with
  | nil =>
    rw [List.head?_nil] at hhead
    rw [List.getLast?_nil] at htail
    rw [List.length_nil] at hlen
    have hpush : unshiftOne s v =
        { s with heap := fun j => if j = s.fresh then some (newItem v true) else s.heap j,
                 fresh := s.fresh + 1, head := some s.fresh, tail := some s.fresh,
                 length := s.length + 1 } := by
      unfold unshiftOne
      dsimp only
      rw [htail]
    refine ⟨⟨?_, ?_, ?_, ?_, ?_, ?_⟩, ?_, ?_, ?_⟩
    · rw [hpush, segb_singleton]
      exact ⟨newItem v true, by simp, rfl, fun _ => rfl, rfl⟩
    · rw [hpush]
      rfl
    · rw [hpush]
      rfl
    · rw [hpush]
      dsimp only
      rw [hlen]
      simp
    · simp
    · rw [hpush]
      intro x hx
      simp only [List.mem_singleton] at hx
      subst hx
      dsimp only
      omega
    · rw [hpush]
      unfold valueAt
      simp [newItem]
    · intro j hj
      rw [hpush]
      unfold valueAt
      simp [hj]
    · rw [hpush]
  | cons a rest =>
    rw [List.head?_cons] at hhead
    have hamem : a ∈ a :: rest := by simp
    have hai : s.fresh ≠ a := fun h => hfni (h ▸ hamem)
    obtain ⟨t, ht⟩ : ∃ t, (a :: rest).getLast? = some t :=
      ⟨_, List.getLast?_eq_getLast_of_ne_nil (by simp)⟩
    have htail' : s.tail = some t := by rw [htail, ht]
    have hpush := unshiftOne_eq_of_nonempty v hhead htail' hai
    have hheap : ∀ x, x ≠ s.fresh → x ≠ a → (unshiftOne s v).heap x = s.heap x := by
      intro x h1 h2
      rw [hpush]
      dsimp only
      rw [setBehind_heap, insertBefore_heap]
      simp [h1, h2]
    have hheapA : (unshiftOne s v).heap a
        = (s.heap a).map (fun x =>
            { x with before := some s.fresh, unlinkCleanup := x.unlinkCleanup || true }) := by
      rw [hpush]
      dsimp only
      rw [setBehind_heap, insertBefore_heap]
      simp [Ne.symm hai, hai, newItem]
    have hheapF : (unshiftOne s v).heap s.fresh
        = some { value := v, before := none, behind := some a, unlinkCleanup := true } := by
      rw [hpush]
      dsimp only
      rw [setBehind_heap, insertBefore_heap]
      simp [hai, newItem]
    refine ⟨⟨?_, ?_, ?_, ?_, ?_, ?_⟩, ?_, ?_, ?_⟩
    · rw [segb_cons]
      refine ⟨_, hheapF, rfl, fun _ => rfl, rfl, ?_⟩
      refine segb_update_first (fun x =>
          { x with before := some s.fresh, unlinkCleanup := x.unlinkCleanup || true }) hseg
        hheapA (fun _ => rfl) (fun _ => rfl) (fun _ h => by simp) ?_
      · intro x hx
        have hxa : x ≠ a := fun h => (List.nodup_cons.mp hnd).1 (h ▸ hx)
        exact hheap x (fun h => hfni (h ▸ List.mem_cons_of_mem _ hx)) hxa
    · rw [hpush]
      rfl
    · rw [hpush]
      dsimp only
      rw [setBehind_tail, insertBefore_tail]
      dsimp only
      rw [htail, List.getLast?_cons_cons]
    · rw [hpush]
      dsimp only
      rw [hlen]
      simp
    · rw [List.nodup_cons]
      exact ⟨hfni, hnd⟩
    · intro x hx
      rw [hpush]
      dsimp only
      rcases List.mem_cons.mp hx with h | h
      · subst h
        exact Nat.lt_succ_self _
      · exact Nat.lt_succ_of_lt (hfr x h)
    · unfold valueAt
      rw [hheapF]
      rfl
    · intro j hj
      unfold valueAt
      by_cases hja : j = a
      · subst hja
        rw [hheapA]
        cases s.heap j <;> rfl
      · rw [hheap j hj hja]
    · rw [hpush]
      rfl

/-! ### Chain values -/

@[simp] lemma chainVals_nil (h : Heap T) : chainVals h [] = [] := rfl

lemma chainVals_cons_of (h : Heap T) {i : Nat} {w : T} (hv : (h i).map (·.value) = some w)
    (ids : List Nat) : chainVals h (i :: ids) = w :: chainVals h ids := by
  simp [chainVals, List.filterMap_cons, hv]

lemma chainVals_append (h : Heap T) (l r : List Nat) :
    chainVals h (l ++ r) = chainVals h l ++ chainVals h r := by
  simp [chainVals, List.filterMap_append]

lemma chainVals_congr {h h' : Heap T} {ids : List Nat}
    (H : ∀ i ∈ ids, (h' i).map (·.value) = (h i).map (·.value)) :
    chainVals h' ids = chainVals h ids := by
  induction ids with
  | nil => rfl
  | cons i rest ih =>
    simp only [chainVals, List.filterMap_cons] at *
    rw [H i (by simp), ih (fun j hj => H j (by simp [hj]))]

/-- The fields of a chain node, read off the segment. -/
lemma chain_node {s : LinkedList T} {l r : List Nat} {i : Nat}
    (hc : isChain s (l ++ i :: r)) :
    ∃ it, s.heap i = some it ∧ it.behind = r.head? ∧ it.before = l.getLast? ∧
      it.unlinkCleanup = true := by
  obtain ⟨hseg, -, -, -, -, -⟩ := hc
  rw [segb_append] at hseg
  obtain ⟨-, seg2⟩ := hseg
  rw [segb_cons] at seg2
  obtain ⟨it, hit, h1, h2, h3, -⟩ := seg2
  exact ⟨it, hit, by rw [h3, linkOf_none], by rw [h1, lastO_none], h2 rfl⟩

/-! ### Preservation by the removal operations -/

lemma isChain_empty : isChain (emptyList : LinkedList T) [] :=
  ⟨rfl, rfl, rfl, rfl, List.nodup_nil, by simp⟩

/-- Clearing always leaves the empty chain. -/
lemma clear_chain (s : LinkedList T) (u : Bool) : isChain (clear s u) [] := by
  refine ⟨rfl, ?_, ?_, ?_, List.nodup_nil, by simp⟩ <;> unfold clear <;> rfl

lemma pop_chain {s : LinkedList T} {ids : List Nat} (hc : isChain s ids) :
    isChain (pop s).1 ids.dropLast ∧
    (pop s).2 = (chainVals s.heap ids).getLast? := by
  cases hids : ids.getLast? with
  | none =>
    rw [List.getLast?_eq_none_iff] at hids
    subst hids
    have htail : s.tail = none := hc.2.2.1
    unfold pop
    rw [htail]
    exact ⟨hc, rfl⟩
  | some t =>
    have hsplit : ids.dropLast ++ [t] = ids := List.dropLast_append_getLast? t hids
    have htail : s.tail = some t := by rw [hc.2.2.1, hids]
    have hc' : isChain s (ids.dropLast ++ t :: []) := by rw [hsplit]; exact hc
    have hul := unlink_chain hc'
    obtain ⟨it, hit, -, -, -⟩ := chain_node hc'
    unfold pop
    rw [htail]
    dsimp only
    constructor
    · simpa using hul.1
    · have hv : valueAt (unlink s t false) t = valueAt s t := valueAt_unlink s t false t
      unfold valueAt at hv
      rw [hv, ← hsplit, chainVals_append, chainVals_cons_of s.heap (w := it.value) (by rw [hit]; rfl)]
      rw [hit]
      simp

lemma shift_chain {s : LinkedList T} {ids : List Nat} (hc : isChain s ids) :
    isChain (shift s).1 ids.tail ∧
    (shift s).2 = (chainVals s.heap ids).head? := by
  cases ids with
  | nil =>
    have hhead : s.head = none := hc.2.1
    unfold shift
    rw [hhead]
    exact ⟨hc, rfl⟩
  | cons a rest =>
    have hhead : s.head = some a := hc.2.1
    have hc' : isChain s ([] ++ a :: rest) := hc
    have hul := unlink_chain hc'
    obtain ⟨it, hit, -, -, -⟩ := chain_node hc'
    unfold shift
    rw [hhead]
    dsimp only
    constructor
    · simpa using hul.1
    · have hv : valueAt (unlink s a false) a = valueAt s a := valueAt_unlink s a false a
      unfold valueAt at hv
      rw [hv, chainVals_cons_of s.heap (w := it.value) (by rw [hit]; rfl)]
      rw [hit]
      simp

lemma removeAux_none [DecidableEq T] (fuel : Nat) (s : LinkedList T) (v : T) :
    removeAux fuel s none v = (s, false) := by
  cases fuel <;> rfl

lemma removeAllAux_none [DecidableEq T] (fuel : Nat) (s : LinkedList T) (v : T) (found : Bool) :
    removeAllAux fuel s none v found = (s, found) := by
  cases fuel <;> rfl

/-- Full specification of the `remove` scan: starting behind the already
scanned prefix `l` (which contains no match), it unlinks the first matching
node of `r` and reports whether a match existed. -/
lemma removeAux_full [DecidableEq T] :
    ∀ (r l : List Nat) (s : LinkedList T) (v : T) (fuel : Nat),
      isChain s (l ++ r) → r.length ≤ fuel →
      (∀ x ∈ chainVals s.heap l, x ≠ v) →
      ∃ ids', isChain (removeAux fuel s r.head? v).1 ids' ∧
        chainVals (removeAux fuel s r.head? v).1.heap ids' = (chainVals s.heap (l ++ r)).erase v ∧
        ((removeAux fuel s r.head? v).2 = true ↔ v ∈ chainVals s.heap r) ∧
        (removeAux fuel s r.head? v).1.fresh = s.fresh ∧
        (v ∉ chainVals s.heap r → removeAux fuel s r.head? v = (s, false)) := by
  intro r
  induction r with
  | nil =>
    intro l s v fuel hc _ hlv
    rw [List.head?_nil, removeAux_none]
    refine ⟨l, by simpa using hc, ?_, by simp, rfl, fun _ => rfl⟩
    rw [List.append_nil, List.erase_of_not_mem]
    exact fun hmem => hlv v hmem rfl
  | cons i r2 ih =>
    intro l s v fuel hc hfuel hlv
    obtain ⟨it, hit, hbeh, -, -⟩ := chain_node hc
    have hvi : (s.heap i).map (·.value) = some it.value := by rw [hit]; rfl
    cases fuel with
    | zero => simp at hfuel
    | succ f =>
      rw [List.head?_cons]
      have hvals : chainVals s.heap (i :: r2) = it.value :: chainVals s.heap r2 :=
        chainVals_cons_of s.heap hvi r2
      by_cases hv : it.value = v
      · -- first match: unlink and stop
        have hred : removeAux (f + 1) s (some i) v = (unlink s i false, true) := by
          simp only [removeAux, hit]
          rw [if_pos hv]
        obtain ⟨hchain', -⟩ := unlink_chain hc
        refine ⟨l ++ r2, by rw [hred]; exact hchain', ?_, ?_, by rw [hred]; exact unlink_fresh s i false, ?_⟩
        · rw [hred]
          have hframe : chainVals (unlink s i false).heap (l ++ r2) = chainVals s.heap (l ++ r2) :=
            chainVals_congr (fun j _ => valueAt_unlink s i false j)
          rw [hframe, chainVals_append, chainVals_append, hvals, hv]
          rw [List.erase_append_right _ (fun hmem => hlv v hmem rfl)]
          simp
        · rw [hred]
          simp [hvals, hv]
        · intro hnm
          rw [hvals, hv] at hnm
          simp at hnm
      · -- no match here: step to the next node
        have hred : removeAux (f + 1) s (some i) v
            = removeAux f s ((s.heap i).bind (·.behind)) v := by
          simp only [removeAux, hit]
          rw [if_neg hv]
        have hstep : (s.heap i).bind (·.behind) = r2.head? := by rw [hit]; exact hbeh
        have hc2 : isChain s ((l ++ [i]) ++ r2) := by
          rw [List.append_assoc]
          simpa using hc
        have hl2 : ∀ x ∈ chainVals s.heap (l ++ [i]), x ≠ v := by
          intro x hx
          rw [chainVals_append, List.mem_append] at hx
          rcases hx with hx | hx
          · exact hlv x hx
          · rw [chainVals_cons_of s.heap hvi, chainVals_nil, List.mem_singleton] at hx
            subst hx
            exact hv
        obtain ⟨ids', ha, hb, hcret, hd, he⟩ :=
          ih (l ++ [i]) s v f hc2 (by simpa using hfuel) hl2
        rw [hred, hstep]
        refine ⟨ids', ha, ?_, ?_, hd, ?_⟩
        · rw [hb, List.append_assoc]
          rfl
        · rw [hcret, hvals]
          simp [hv, Ne.symm hv]
        · intro hnm
          apply he
          intro hmem
          apply hnm
          rw [hvals]
          exact List.mem_cons_of_mem _ hmem

/-- Full specification of the `removeAllOccurrences` scan. -/
lemma removeAllAux_full [DecidableEq T] :
    ∀ (r l : List Nat) (s : LinkedList T) (v : T) (fuel : Nat) (found : Bool),
      isChain s (l ++ r) → r.length ≤ fuel →
      ∃ ids', isChain (removeAllAux fuel s r.head? v found).1 ids' ∧
        chainVals (removeAllAux fuel s r.head? v found).1.heap ids'
          = chainVals s.heap l ++ (chainVals s.heap r).filter (fun x => decide (x ≠ v)) ∧
        ((removeAllAux fuel s r.head? v found).2
          = (found || decide (v ∈ chainVals s.heap r))) ∧
        (removeAllAux fuel s r.head? v found).1.fresh = s.fresh := by
  intro r
  induction r with
  | nil =>
    intro l s v fuel found hc _
    rw [List.head?_nil, removeAllAux_none]
    exact ⟨l, by simpa using hc, by simp, by simp, rfl⟩
  | cons i r2 ih =>
    intro l s v fuel found hc hfuel
    obtain ⟨it, hit, hbeh, -, -⟩ := chain_node hc
    have hvi : (s.heap i).map (·.value) = some it.value := by rw [hit]; rfl
    cases fuel with
    | zero => simp at hfuel
    | succ f =>
      rw [List.head?_cons]
      have hvals : chainVals s.heap (i :: r2) = it.value :: chainVals s.heap r2 :=
        chainVals_cons_of s.heap hvi r2
      by_cases hv : it.value = v
      · -- match: unlink, then continue through the removed node
        obtain ⟨hchain', hcont⟩ := unlink_chain hc
        have hred : removeAllAux (f + 1) s (some i) v found
            = removeAllAux f (unlink s i false) (((unlink s i false).heap i).bind (·.behind)) v true := by
          simp only [removeAllAux, hit]
          rw [if_pos hv]
        have hframe : ∀ j ∈ l ++ r2,
            ((unlink s i false).heap j).map (·.value) = (s.heap j).map (·.value) :=
          fun j _ => valueAt_unlink s i false j
        obtain ⟨ids', ha, hb, hcret, hd⟩ :=
          ih l (unlink s i false) v f true hchain' (by simpa using hfuel)
        rw [hred, hcont]
        refine ⟨ids', ha, ?_, ?_, by rw [hd]; exact unlink_fresh s i false⟩
        · rw [hb, hvals]
          have h1 : chainVals (unlink s i false).heap l = chainVals s.heap l :=
            chainVals_congr (fun j _ => valueAt_unlink s i false j)
          have h2 : chainVals (unlink s i false).heap r2 = chainVals s.heap r2 :=
            chainVals_congr (fun j _ => valueAt_unlink s i false j)
          rw [h1, h2, List.filter_cons]
          simp [hv]
        · rw [hcret, hvals]
          have h2 : chainVals (unlink s i false).heap r2 = chainVals s.heap r2 :=
            chainVals_congr (fun j _ => valueAt_unlink s i false j)
          rw [h2]
          simp [hv]
      · -- no match: step on
        have hred : removeAllAux (f + 1) s (some i) v found
            = removeAllAux f s ((s.heap i).bind (·.behind)) v found := by
          simp only [removeAllAux, hit]
          rw [if_neg hv]
        have hstep : (s.heap i).bind (·.behind) = r2.head? := by rw [hit]; exact hbeh
        have hc2 : isChain s ((l ++ [i]) ++ r2) := by
          rw [List.append_assoc]
          simpa using hc
        obtain ⟨ids', ha, hb, hcret, hd⟩ :=
          ih (l ++ [i]) s v f found hc2 (by simpa using hfuel)
        rw [hred, hstep]
        refine ⟨ids', ha, ?_, ?_, hd⟩
        · rw [hb, chainVals_append, chainVals_cons_of s.heap hvi, chainVals_nil, hvals,
            List.filter_cons]
          simp [hv]
        · rw [hcret, hvals]
          simp [hv, Ne.symm hv]

/-! ### Folding `push`/`unshift` over argument lists -/

lemma foldl_pushOne_chain :
    ∀ (vs : List T) (s : LinkedList T) (ids : List Nat), isChain s ids →
      ∃ ids', isChain (vs.foldl pushOne s) ids' ∧
        chainVals (vs.foldl pushOne s).heap ids' = chainVals s.heap ids ++ vs ∧
        (vs.foldl pushOne s).length = s.length + vs.length := by
  intro vs
  induction vs with
  | nil =>
    intro s ids hc
    exact ⟨ids, hc, by simp, by simp⟩
  | cons v vs ih =>
    intro s ids hc
    obtain ⟨hc1, hval, hframe, -⟩ := pushOne_chain hc v
    obtain ⟨ids', ha, hb, hlen'⟩ := ih (pushOne s v) (ids ++ [s.fresh]) hc1
    refine ⟨ids', by simpa using ha, ?_, ?_⟩
    · rw [List.foldl_cons] at *
      rw [hb, chainVals_append]
      have h1 : chainVals (pushOne s v).heap ids = chainVals s.heap ids := by
        refine chainVals_congr ?_
        intro j hj
        have hjf : j ≠ s.fresh := fun h => lt_irrefl _ (h ▸ hc.2.2.2.2.2 j hj)
        exact hframe j hjf
      have h2 : chainVals (pushOne s v).heap [s.fresh] = [v] := by
        unfold chainVals
        unfold valueAt at hval
        simp [List.filterMap_cons, hval]
      rw [h1, h2]
      simp
    · rw [List.foldl_cons] at *
      rw [hlen']
      have hplen : (pushOne s v).length = s.length + 1 := by
        have := hc1.2.2.2.1
        rw [this, hc.2.2.2.1]
        simp [List.length_append]
      rw [hplen]
      simp only [List.length_cons]
      push_cast
      ring

lemma foldl_unshiftOne_chain :
    ∀ (vs : List T) (s : LinkedList T) (ids : List Nat), isChain s ids →
      ∃ ids', isChain (vs.foldl unshiftOne s) ids' ∧
        chainVals (vs.foldl unshiftOne s).heap ids' = vs.reverse ++ chainVals s.heap ids ∧
        (vs.foldl unshiftOne s).length = s.length + vs.length := by
  intro vs
  induction vs with
  | nil =>
    intro s ids hc
    exact ⟨ids, hc, by simp, by simp⟩
  | cons v vs ih =>
    intro s ids hc
    obtain ⟨hc1, hval, hframe, -⟩ := unshiftOne_chain hc v
    obtain ⟨ids', ha, hb, hlen'⟩ := ih (unshiftOne s v) (s.fresh :: ids) hc1
    refine ⟨ids', by simpa using ha, ?_, ?_⟩
    · rw [List.foldl_cons] at *
      rw [hb]
      have h1 : chainVals (unshiftOne s v).heap ids = chainVals s.heap ids := by
        refine chainVals_congr ?_
        intro j hj
        have hjf : j ≠ s.fresh := fun h => lt_irrefl _ (h ▸ hc.2.2.2.2.2 j hj)
        exact hframe j hjf
      have h2 : chainVals (unshiftOne s v).heap (s.fresh :: ids)
          = v :: chainVals (unshiftOne s v).heap ids := by
        refine chainVals_cons_of _ ?_ _
        unfold valueAt at hval
        exact hval
      rw [h2, h1]
      simp
    · rw [List.foldl_cons] at *
      rw [hlen']
      have hplen : (unshiftOne s v).length = s.length + 1 := by
        have := hc1.2.2.2.1
        rw [this, hc.2.2.2.1]
        simp
      rw [hplen]
      simp only [List.length_cons]
      push_cast
      ring

/-! ### States reachable through the public list operations -/

/-- Every reachable state is a well-formed chain. -/
lemma reachable_wf [DecidableEq T] {s : LinkedList T} (hr : Reachable s) : Wf s := by
  induction hr with
  | init vs =>
    obtain ⟨ids', h, -, -⟩ := foldl_pushOne_chain vs emptyList [] isChain_empty
    exact ⟨ids', h⟩
  | ofPush s vs _ ih =>
    obtain ⟨ids, hc⟩ := ih
    obtain ⟨ids', h, -, -⟩ := foldl_pushOne_chain vs s ids hc
    exact ⟨ids', h⟩
  | ofUnshift s vs _ ih =>
    obtain ⟨ids, hc⟩ := ih
    obtain ⟨ids', h, -, -⟩ := foldl_unshiftOne_chain vs s ids hc
    exact ⟨ids', h⟩
  | ofPop s _ ih =>
    obtain ⟨ids, hc⟩ := ih
    exact ⟨ids.dropLast, (pop_chain hc).1⟩
  | ofShift s _ ih =>
    obtain ⟨ids, hc⟩ := ih
    exact ⟨ids.tail, (shift_chain hc).1⟩
  | ofRemove s v _ ih =>
    obtain ⟨ids, hc⟩ := ih
    have hfuel : ids.length ≤ s.fresh := length_le_of_nodup_lt hc.2.2.2.2.1 hc.2.2.2.2.2
    obtain ⟨ids', h, -, -, -, -⟩ :=
      removeAux_full ids [] s v s.fresh (by simpa using hc) hfuel (by simp)
    unfold remove
    rw [hc.2.1]
    exact ⟨ids', h⟩
  | ofRemoveAll s v _ ih =>
    obtain ⟨ids, hc⟩ := ih
    have hfuel : ids.length ≤ s.fresh := length_le_of_nodup_lt hc.2.2.2.2.1 hc.2.2.2.2.2
    obtain ⟨ids', h, -, -, -⟩ :=
      removeAllAux_full ids [] s v s.fresh false (by simpa using hc) hfuel
    unfold removeAllOccurrences
    rw [hc.2.1]
    exact ⟨ids', h⟩
  | ofClear s u _ _ =>
    exact ⟨[], clear_chain s u⟩

/-! ### The aggregate head/tail/length invariant -/

/-- A well-formed chain satisfies the aggregate invariant. -/
lemma chain_inv {s : LinkedList T} {ids : List Nat} (hc : isChain s ids) : Inv s := by
  obtain ⟨hseg, hhead, htail, hlen, hnd, -⟩ := hc
  refine ⟨?_, ?_, ?_⟩
  · constructor
    · intro h0
      have hn : ids.length = 0 := by
        rw [h0] at hlen
        exact_mod_cast hlen.symm
      have hne : ids = [] := List.length_eq_zero.mp hn
      subst hne
      exact ⟨by simpa using hhead, by simpa using htail⟩
    · rintro ⟨h1, -⟩
      cases ids with
      | nil => simpa using hlen
      | cons a rest =>
        rw [hhead] at h1
        simp at h1
  · constructor
    · intro h1
      have hn : ids.length = 1 := by
        rw [h1] at hlen
        exact_mod_cast hlen.symm
      obtain ⟨i, hi⟩ := List.length_eq_one.mp hn
      subst hi
      exact ⟨i, by simpa using hhead, by simpa using htail⟩
    · rintro ⟨i, h1, h2⟩
      cases ids with
      | nil =>
        rw [hhead] at h1
        cases h1
      | cons a rest =>
        cases rest with
        | nil => simpa using hlen
        | cons b rest2 =>
          rw [hhead, List.head?_cons, Option.some.injEq] at h1
          rw [htail, List.getLast?_cons_cons] at h2
          have hmem : i ∈ b :: rest2 := by
            have hsplit := List.dropLast_append_getLast? i h2
            rw [← hsplit]
            simp
          rw [List.nodup_cons] at hnd
          exact absurd (h1 ▸ hmem) hnd.1
  · intro hlong
    cases ids with
    | nil => simp at hlen; omega
    | cons a rest =>
      cases rest with
      | nil => simp at hlen; omega
      | cons b rest2 =>
        obtain ⟨tl, htl⟩ : ∃ tl, (a :: b :: rest2).getLast? = some tl :=
          ⟨_, List.getLast?_eq_getLast_of_ne_nil (by simp)⟩
        have htlmem : tl ∈ b :: rest2 := by
          rw [List.getLast?_cons_cons] at htl
          have hsplit := List.dropLast_append_getLast? tl htl
          rw [← hsplit]
          simp
        have hane : a ≠ tl := by
          rw [List.nodup_cons] at hnd
          exact fun h => hnd.1 (h ▸ htlmem)
        have hkval : ((s.length - 1).toNat) = (a :: b :: rest2).length - 1 := by
          rw [hlen]
          simp
        refine ⟨?_, a, tl, by simpa using hhead, by rw [htail, htl], ?_, ?_⟩
        · rw [hhead, htail, htl]
          simp only [List.head?_cons, ne_eq, Option.some.injEq]
          exact hane
        · have hw := segb_walkF (a :: b :: rest2) none hseg ((s.length - 1).toNat)
          rw [List.head?_cons] at hw
          rw [hw, hkval, ← List.getLast?_eq_getElem?, htl]
        · have hw := segb_walkB hseg ((s.length - 1).toNat)
          rw [htl] at hw
          rw [hw, hkval]
          have hlt : (a :: b :: rest2).length - 1 < (a :: b :: rest2).length := by simp
          rw [List.getElem?_reverse hlt]
          simp

/-! ### `getItemByIndex` -/

lemma getItemByIndex_chain {s : LinkedList T} {ids : List Nat} (hc : isChain s ids) (index : Int) :
    getItemByIndex s index =
      if 0 ≤ index then ids[index.toNat]?
      else if -(ids.length : Int) ≤ index then ids[((ids.length : Int) + index).toNat]?
      else none := by
  obtain ⟨hseg, hhead, htail, hlen, hnd, -⟩ := hc
  unfold getItemByIndex
  rw [hhead]
  cases ids with
  | nil =>
    rw [List.head?_nil]
    dsimp only
    simp
  | cons a rest =>
    rw [List.head?_cons]
    dsimp only
    by_cases hpos : index > 0
    · rw [if_pos hpos, if_pos (le_of_lt hpos)]
      have hw := segb_walkF (a :: rest) none hseg index.toNat
      rw [List.head?_cons] at hw
      exact hw
    · by_cases hneg : index < 0
      · rw [if_neg hpos, if_pos hneg, htail]
        rw [if_neg (by omega : ¬ 0 ≤ index)]
        have hw := segb_walkB hseg ((-index).toNat - 1)
        rw [hw]
        by_cases hin : -((a :: rest).length : Int) ≤ index
        · rw [if_pos hin]
          have hm1 : (-index).toNat - 1 < (a :: rest).length := by
            simp only [List.length_cons] at *
            omega
          rw [List.getElem?_reverse hm1]
          congr 1
          simp only [List.length_cons] at *
          omega
        · rw [if_neg hin]
          rw [List.getElem?_eq_none]
          rw [List.length_reverse]
          simp only [List.length_cons] at *
          omega
      · have h0 : index = 0 := by omega
        subst h0
        rw [if_neg hpos, if_neg hneg, if_pos le_rfl]
        simp

/-! ### `clear(true)`: unchaining every node -/

/-- Unlinking the head with `unchain = true` removes and fully detaches it. -/
lemma unlink_head_chain_true {s : LinkedList T} {a : Nat} {rest : List Nat}
    (hc : isChain s (a :: rest)) :
    isChain (unlink s a true) rest ∧
    (∃ it', (unlink s a true).heap a = some it' ∧ it'.before = none ∧ it'.behind = none) ∧
    (∀ j, j ≠ a → j ∉ rest → (unlink s a true).heap j = s.heap j) := by
  have hc' : isChain s ([] ++ a :: rest) := hc
  obtain ⟨it, hit, hbeh, hbef, hcln⟩ := chain_node hc'
  rw [List.getLast?_nil] at hbef
  obtain ⟨hseg, hhead, htail, hlen, hnd, hfr⟩ := hc
  rw [List.nodup_cons] at hnd
  rw [segb_cons] at hseg
  obtain ⟨it2, hit2, -, -, -, seg3⟩ := hseg
  have hbi : it.before ≠ some a := by rw [hbef]; exact fun h => by cases h
  have hbhi : it.behind ≠ some a := by
    rw [hbeh]
    intro h
    cases rest with
    | nil => cases h
    | cons j r2 =>
      rw [List.head?_cons, Option.some.injEq] at h
      exact hnd.1 (h ▸ List.mem_cons_self j r2)
  have hother : ∀ j, j ≠ a → j ∉ rest → (unlink s a true).heap j = s.heap j := by
    intro j hja hjr
    refine unlink_heap_other hit j hja (by rw [hbef]; exact fun h => by cases h) ?_ true
    rw [hbeh]
    intro h
    cases rest with
    | nil => cases h
    | cons x r2 =>
      rw [List.head?_cons, Option.some.injEq] at h
      exact hjr (h ▸ List.mem_cons_self x r2)
  refine ⟨⟨?_, ?_, ?_, ?_, hnd.2, ?_⟩, ?_, hother⟩
  · -- the rest still forms a segment, with its first node's `before` cleared
    cases rest with
    | nil => simp
    | cons j r2 =>
      have hbehj : it.behind = some j := by rw [hbeh]; rfl
      have hji : j ≠ a := fun h => hnd.1 (h ▸ List.mem_cons_self j r2)
      refine segb_update_first (fun x => { x with before := none }) seg3
        ?_ (fun _ => rfl) (fun _ => rfl) (fun _ h => h) ?_
      · rw [unlink_heap_behind_target hit j hbehj hji (by rw [hbef]; exact fun h => by cases h) true,
          hbef]
      · intro x hx
        have hxa : x ≠ a := fun h => hnd.1 (h ▸ List.mem_cons_of_mem _ hx)
        refine unlink_heap_other hit x hxa (by rw [hbef]; exact fun h => by cases h) ?_ true
        rw [hbehj]
        intro h
        rw [Option.some.injEq] at h
        subst h
        exact (List.nodup_cons.mp hnd.2).1 hx
  · rw [unlink_head_clean hit hcln hbi hbhi true, hhead]
    simp [hbeh]
  · rw [unlink_tail_clean hit hcln hbi hbhi true, htail, getLastq_cons]
    cases hr : rest.getLast? with
    | none =>
      rw [List.getLast?_eq_none_iff] at hr
      subst hr
      simp [lastO, hbef]
    | some z =>
      have hzr : z ∈ rest := by
        have hsplit := List.dropLast_append_getLast? z hr
        rw [← hsplit]
        simp
      have hza : ¬ (some z = some a) := by
        simp only [Option.some.injEq]
        exact fun h => hnd.1 (h ▸ hzr)
      simp [lastO, hr, hza]
  · rw [unlink_length_clean hit hcln true, hlen]
    simp
  · rw [unlink_fresh]
    exact fun x hx => hfr x (List.mem_cons_of_mem _ hx)
  · exact ⟨_, unlink_heap_self_true hit hbi hbhi, rfl, rfl⟩

/-- The `clear(true)` loop fully detaches every chain node and touches no
other node. -/
lemma clearLoop_detach :
    ∀ (ids : List Nat) (s : LinkedList T), isChain s ids → ∀ fuel, ids.length ≤ fuel →
      (∀ i ∈ ids, ∃ it', (clearLoop fuel s).heap i = some it' ∧
        it'.before = none ∧ it'.behind = none) ∧
      (∀ j, j ∉ ids → (clearLoop fuel s).heap j = s.heap j) := by
  intro ids
  induction ids with
  | nil =>
    intro s hc fuel _
    have hhead : s.head = none := hc.2.1
    have hred : clearLoop fuel s = s := by
      cases fuel with
      | zero => rfl
      | succ f =>
        unfold clearLoop
        rw [hhead]
    rw [hred]
    exact ⟨by simp, fun _ _ => rfl⟩
  | cons a rest ih =>
    intro s hc fuel hfuel
    cases fuel with
    | zero => simp at hfuel
    | succ f =>
      have hhead : s.head = some a := hc.2.1
      have hred : clearLoop (f + 1) s = clearLoop f (unlink s a true) := by
        conv_lhs => rw [clearLoop]
        rw [hhead]
      obtain ⟨hc', hdet, hother⟩ := unlink_head_chain_true hc
      obtain ⟨ihdet, ihother⟩ := ih (unlink s a true) hc' f (by simpa using hfuel)
      have hanr : a ∉ rest := (List.nodup_cons.mp hc.2.2.2.2.1).1
      rw [hred]
      constructor
      · intro i hi
        rcases List.mem_cons.mp hi with h | h
        · subst h
          obtain ⟨it', h1, h2, h3⟩ := hdet
          exact ⟨it', by rw [ihother i hanr]; exact h1, h2, h3⟩
        · exact ihdet i h
      · intro j hj
        rw [List.mem_cons, not_or] at hj
        rw [ihother j hj.2, hother j hj.1 hj.2]

/-! ### `reduce` / `reduceRight` -/

/-- Along a finite chain the fold loop always returns a value. -/
lemma foldLoop_chain {h : Heap T} {req : Bool} (f : T → T → T) :
    ∀ (rest : List Nat) (a : Nat) (p : Option Nat),
      segb h req p (a :: rest) none = true →
      ∀ (fuel : Nat), rest.length < fuel → ∀ acc,
        ∃ w, foldLoop h f fuel acc a = Except.ok w := by
  intro rest
  induction rest with
  | nil =>
    intro a p hseg fuel hfuel acc
    rw [segb_singleton] at hseg
    obtain ⟨it, hit, -, -, hbeh⟩ := hseg
    cases fuel with
    | zero => simp at hfuel
    | succ f' =>
      refine ⟨f acc it.value, ?_⟩
      unfold foldLoop
      rw [hit]
      dsimp only
      rw [hbeh]
  | cons b rest2 ih =>
    intro a p hseg fuel hfuel acc
    rw [segb_cons] at hseg
    obtain ⟨it, hit, -, -, hbeh, hseg2⟩ := hseg
    cases fuel with
    | zero => simp at hfuel
    | succ f' =>
      have hbehb : it.behind = some b := by simpa [linkOf] using hbeh
      obtain ⟨w, hw⟩ := ih b (some a) hseg2 f' (by simpa using hfuel) (f acc it.value)
      refine ⟨w, ?_⟩
      unfold foldLoop
      rw [hit]
      dsimp only
      rw [hbehb]
      exact hw

lemma foldLoopB_eq_mirror (h : Heap T) (f : T → T → T) :
    ∀ (fuel : Nat) (acc : T) (i : Nat), foldLoopB h f fuel acc i = foldLoop (mirror h) f fuel acc i := by
  intro fuel
  induction fuel with
  | zero => intro acc i; rfl
  | succ f' ih =>
    intro acc i
    unfold foldLoopB foldLoop
    cases hh : h i with
    | none => simp [mirror, hh]
    | some it =>
      have hm : mirror h i = some { it with before := it.behind, behind := it.before } := by
        simp [mirror, hh]
      rw [hm]
      dsimp only
      cases it.before <;> simp [ih]

/-- Characterisation of the `reduce` result on a well-formed list: it fails
exactly on the empty list with an absent or falsy seed, and an empty list
with a truthy seed returns the seed. -/
lemma reduce_chain {s : LinkedList T} {ids : List Nat} (hc : isChain s ids)
    (isF : T → Bool) (f : T → T → T) (init : Option T) :
    (reduce isF f s init = Except.error () ↔
      (ids = [] ∧ (init = none ∨ ∃ v, init = some v ∧ isF v = true))) ∧
    (∀ v, ids = [] → init = some v → isF v = false → reduce isF f s init = Except.ok v) := by
  obtain ⟨hseg, hhead, htail, hlen, hnd, hfr⟩ := hc
  have hfuel : ids.length ≤ s.fresh := length_le_of_nodup_lt hnd hfr
  cases ids with
  | nil =>
    unfold reduce
    rw [hhead, List.head?_nil]
    dsimp only
    cases init with
    | none => simp
    | some v =>
      cases hF : isF v with
      | true => simp [hF]
      | false => simp [hF]
  | cons a rest =>
    have hsegA : segb s.heap true none (a :: rest) none = true := hseg
    unfold reduce
    rw [hhead, List.head?_cons]
    dsimp only
    rw [segb_cons] at hseg
    obtain ⟨it, hit, -, -, hbeh, hseg2⟩ := hseg
    rw [hit]
    dsimp only
    constructor
    · cases init with
      | some v =>
        dsimp only
        obtain ⟨w, hw⟩ := foldLoop_chain f rest a none hsegA s.fresh
          (by simp only [List.length_cons] at hfuel; omega) v
        rw [hw]
        simp
      | none =>
        dsimp only
        cases hbh : it.behind with
        | none => simp
        | some j =>
          cases rest with
          | nil =>
            rw [hbh] at hbeh
            simp [linkOf] at hbeh
          | cons b rest2 =>
            have hjb : j = b := by
              rw [hbh] at hbeh
              simpa [linkOf] using hbeh
            subst hjb
            obtain ⟨w, hw⟩ := foldLoop_chain f rest2 j (some a) hseg2 s.fresh
              (by simp only [List.length_cons] at hfuel; omega) it.value
            simp [hw]
    · intro v hnil
      simp at hnil

/-- The tail-to-head mirror of `reduce_chain`. -/
lemma reduceRight_chain {s : LinkedList T} {ids : List Nat} (hc : isChain s ids)
    (isF : T → Bool) (f : T → T → T) (init : Option T) :
    (reduceRight isF f s init = Except.error () ↔
      (ids = [] ∧ (init = none ∨ ∃ v, init = some v ∧ isF v = true))) ∧
    (∀ v, ids = [] → init = some v → isF v = false →
      reduceRight isF f s init = Except.ok v) := by
  obtain ⟨hseg, hhead, htail, hlen, hnd, hfr⟩ := hc
  have hfuel : ids.length ≤ s.fresh := length_le_of_nodup_lt hnd hfr
  have hmA := segb_mirror hseg
  cases hrev : ids.reverse with
  | nil =>
    have hids : ids = [] := by
      have := congrArg List.reverse hrev
      simpa using this
    subst hids
    unfold reduceRight
    rw [htail, List.getLast?_nil]
    dsimp only
    cases init with
    | none => simp
    | some v =>
      cases hF : isF v with
      | true => simp [hF]
      | false => simp [hF]
  | cons tl rest' =>
    have hids_ne : ids ≠ [] := by
      intro h
      rw [h] at hrev
      simp at hrev
    have htl : ids.getLast? = some tl := by
      rw [← List.head?_reverse, hrev, List.head?_cons]
    rw [hrev] at hmA
    have hlenrev : rest'.length + 1 = ids.length := by
      have := congrArg List.length hrev
      simpa using this.symm
    obtain ⟨it, hit, hbf⟩ : ∃ it, s.heap tl = some it ∧ it.before = linkOf rest' none := by
      have hm2 := hmA
      rw [segb_cons] at hm2
      obtain ⟨mIt, hmIt, -, -, hmbeh, -⟩ := hm2
      unfold mirror at hmIt
      cases hst : s.heap tl with
      | none =>
        rw [hst] at hmIt
        cases hmIt
      | some it =>
        rw [hst] at hmIt
        injection hmIt with he
        refine ⟨it, rfl, ?_⟩
        rw [← he] at hmbeh
        exact hmbeh
    unfold reduceRight
    rw [htail, htl]
    dsimp only
    rw [hit]
    dsimp only
    constructor
    · cases init with
      | some v =>
        dsimp only
        rw [foldLoopB_eq_mirror]
        obtain ⟨w, hw⟩ := foldLoop_chain f rest' tl none hmA s.fresh (by omega) v
        simp [hw, hids_ne]
      | none =>
        dsimp only
        cases hbh : it.before with
        | none => simp [hids_ne]
        | some j =>
          cases rest' with
          | nil =>
            rw [hbh] at hbf
            simp [linkOf] at hbf
          | cons b rest2 =>
            have hjb : j = b := by
              rw [hbh] at hbf
              simpa [linkOf] using hbf
            subst hjb
            have hm2 := hmA
            rw [segb_cons] at hm2
            obtain ⟨-, -, -, -, -, hseg2m⟩ := hm2
            obtain ⟨w, hw⟩ := foldLoop_chain f rest2 j (some tl) hseg2m s.fresh
              (by simp only [List.length_cons] at hlenrev; omega) it.value
            simp [foldLoopB_eq_mirror, hw, hids_ne]
    · intro v hnil
      exact absurd hnil hids_ne

/-! ### `insertBehind` with a whole chain -/

/-- The `itemChainEnd` walk finds the last node of a chain. -/
lemma chainEnd_chain {h : Heap T} {req : Bool} :
    ∀ (rest : List Nat) (a : Nat) (p : Option Nat),
      segb h req p (a :: rest) none = true →
      ∀ fuel, rest.length < fuel → chainEnd h fuel a = (a :: rest).getLast? := by
  intro rest
  induction rest with
  | nil =>
    intro a p hseg fuel hfuel
    rw [segb_singleton] at hseg
    obtain ⟨it, hit, -, -, hbeh⟩ := hseg
    cases fuel with
    | zero => simp at hfuel
    | succ f =>
      unfold chainEnd
      rw [hit]
      simp [hbeh]
  | cons b rest2 ih =>
    intro a p hseg fuel hfuel
    rw [segb_cons] at hseg
    obtain ⟨it, hit, -, -, hbeh, hseg2⟩ := hseg
    have hbehb : it.behind = some b := by simpa [linkOf] using hbeh
    cases fuel with
    | zero => simp at hfuel
    | succ f =>
      unfold chainEnd
      rw [hit]
      simp only [Option.some_bind, hbehb, List.getLast?_cons_cons]
      exact ih b (some a) hseg2 f (by simpa using hfuel)

/-- The last node of a chain segment ending in `none` has no successor. -/
lemma segb_last_of_chain {h : Heap T} {req : Bool} {p : Option Nat} {ids : List Nat} {e : Nat}
    (hseg : segb h req p ids none = true) (hl : ids.getLast? = some e) :
    ∃ itE, h e = some itE ∧ itE.behind = none := by
  have hsplit := List.dropLast_append_getLast? e hl
  rw [← hsplit, segb_append] at hseg
  obtain ⟨-, h2⟩ := hseg
  rw [segb_singleton] at h2
  obtain ⟨itE, h1, -, -, h4⟩ := h2
  exact ⟨itE, h1, h4⟩

/-- Unlinking always clears the node's callback reference. -/
lemma unlink_cleanup_cleared {s : LinkedList T} {i : Nat} {it : LinkedListItem T}
    (hit : s.heap i = some it) (u : Bool) :
    ((unlink s i u).heap i).map (·.unlinkCleanup) = some false := by
  unfold unlink
  rw [hit]
  dsimp only
  cases hb : it.before <;> cases hh : it.behind <;> cases u <;>
    simp [setBehind_heap, setBefore_heap, setCleanup_heap, unlinkCleanupFn_heap,
      apply_ite (fun t : LinkedList T => t.heap i)] <;>
    first
    | exact ⟨it, hit⟩
    | (split_ifs <;> simp [hit])

/-- After an `unlink`, the node is still allocated. -/
lemma unlink_heap_isSome {s : LinkedList T} {i : Nat} {it : LinkedListItem T}
    (hit : s.heap i = some it) (u : Bool) :
    ∃ it', (unlink s i u).heap i = some it' ∧ it'.unlinkCleanup = false := by
  have h := unlink_cleanup_cleared hit u
  cases hh : (unlink s i u).heap i with
  | none =>
    rw [hh] at h
    cases h
  | some it' =>
    rw [hh] at h
    refine ⟨it', rfl, ?_⟩
    simpa using h


/-! ## Claim theorems -/

/-- C1: every list produced by a sequence of the public operations
(construction from a sequence, `push`, `unshift`, `pop`, `shift`, `remove`,
`removeAllOccurrences`, `clear`) satisfies the aggregate invariant:
`length = 0` iff head and tail are both absent; `length = 1` iff head and
tail are the same node; for `length > 1` head and tail are distinct, walking
`behind` from the head exactly `length - 1` times reaches the tail, and
walking `before` from the tail exactly `length - 1` times reaches the head. -/
theorem C1_aggregate_invariant [DecidableEq T] (s : LinkedList T) (hr : Reachable s) : Inv s := by
  obtain ⟨ids, hc⟩ := reachable_wf hr
  exact chain_inv hc

theorem C1_aggregate_invariant_witness :
    Reachable (fromList ([1, 2] : List Nat)) ∧ Inv (fromList ([1, 2] : List Nat)) :=
  ⟨Reachable.init [1, 2], C1_aggregate_invariant _ (Reachable.init [1, 2])⟩

/-- C2 counterexample: the claim says a supplied falsy seed (such as `0`) on
an empty list is returned without failing, but the source tests
`!initialValue` (JavaScript truthiness), so `reduce` and `reduceRight` throw
the "Empty accumulator on empty LinkedList is not allowed." `TypeError`
even though the seed `0` was supplied. -/
theorem C2_reduce_falsy_seed_counterexample :
    reduce (fun n : Nat => n == 0) (fun a b => a + b) (fromList ([] : List Nat)) (some 0)
        = Except.error () ∧
    reduce (fun n : Nat => n == 0) (fun a b => a + b) (fromList ([] : List Nat)) (some 0)
        ≠ Except.ok 0 ∧
    reduceRight (fun n : Nat => n == 0) (fun a b => a + b) (fromList ([] : List Nat)) (some 0)
        = Except.error () :=
  ⟨rfl, fun h => Except.noConfusion h, rfl⟩

/-- C2 amended: `reduce` and `reduceRight` fail with the
"Empty accumulator on empty LinkedList is not allowed." error exactly when
called on an empty list with a seed that is absent or falsy (JavaScript
truthiness, modelled by `isF`); on an empty list with a truthy seed they
return the seed without calling the callback (the result holds for every
`f`); on a nonempty list they never fail. -/
theorem C2_reduce_error_characterization (s : LinkedList T) (ids : List Nat)
    (hc : isChain s ids) (isF : T → Bool) (f : T → T → T) (init : Option T) :
    (reduce isF f s init = Except.error () ↔
      (s.head = none ∧ (init = none ∨ ∃ v, init = some v ∧ isF v = true))) ∧
    (reduceRight isF f s init = Except.error () ↔
      (s.head = none ∧ (init = none ∨ ∃ v, init = some v ∧ isF v = true))) ∧
    (∀ v, s.head = none → init = some v → isF v = false →
      reduce isF f s init = Except.ok v ∧ reduceRight isF f s init = Except.ok v) := by
  obtain ⟨h1, h2⟩ := reduce_chain hc isF f init
  obtain ⟨h3, h4⟩ := reduceRight_chain hc isF f init
  have hnil : s.head = none ↔ ids = [] := by
    rw [hc.2.1]
    cases ids <;> simp
  refine ⟨?_, ?_, ?_⟩
  · rw [h1, hnil]
  · rw [h3, hnil]
  · intro v hv hinit hF
    exact ⟨h2 v (hnil.mp hv) hinit hF, h4 v (hnil.mp hv) hinit hF⟩

theorem C2_reduce_error_characterization_witness :
    isChain (fromList ([] : List Nat)) [] ∧
    ((reduce (fun n : Nat => n == 0) (fun a b => a + b) (fromList ([] : List Nat)) (some 1)
        = Except.error () ↔
      ((fromList ([] : List Nat)).head = none ∧
        ((some 1 : Option Nat) = none ∨ ∃ v, (some 1 : Option Nat) = some v ∧ (v == 0) = true))) ∧
     (reduceRight (fun n : Nat => n == 0) (fun a b => a + b) (fromList ([] : List Nat)) (some 1)
        = Except.error () ↔
      ((fromList ([] : List Nat)).head = none ∧
        ((some 1 : Option Nat) = none ∨ ∃ v, (some 1 : Option Nat) = some v ∧ (v == 0) = true))) ∧
     (∀ v, (fromList ([] : List Nat)).head = none → (some 1 : Option Nat) = some v →
        (v == 0) = false →
        reduce (fun n : Nat => n == 0) (fun a b => a + b) (fromList ([] : List Nat)) (some 1)
          = Except.ok v ∧
        reduceRight (fun n : Nat => n == 0) (fun a b => a + b) (fromList ([] : List Nat)) (some 1)
          = Except.ok v)) :=
  ⟨by decide,
    C2_reduce_error_characterization (fromList ([] : List Nat)) [] (by decide)
      (fun n : Nat => n == 0) (fun a b => a + b) (some 1)⟩

/-- C3: `insertBehind` splices the entire forward chain headed by `item` in
immediately after `self`: `item.before` becomes `self`, `self.behind` becomes
`item`, the chain's last node gets `self`'s old successor as its `behind`, and
that old successor points back at the chain's last node; the paired-link
invariant holds along the whole resulting chain (`segb` checks both link
directions of every adjacent pair). -/
theorem C3_insertBehind_splices_chain (s : LinkedList T) (self item : Nat)
    (selfIt : LinkedListItem T) (rest : List Nat) (p : Option Nat)
    (hself : s.heap self = some selfIt)
    (hseg : segb s.heap false p (item :: rest) none = true)
    (hnd : (item :: rest).Nodup)
    (hns : self ∉ item :: rest)
    (hlen : (item :: rest).length ≤ s.fresh)
    (hnext : ∀ ox, selfIt.behind = some ox →
      ox ∉ item :: rest ∧ ox ≠ self ∧ ∃ oIt, s.heap ox = some oIt) :
    segb (insertBehind s self item).heap false selfIt.before
      (self :: item :: rest) selfIt.behind = true ∧
    (∀ ox, selfIt.behind = some ox → ∃ e, (item :: rest).getLast? = some e ∧
      ((insertBehind s self item).heap ox).map (·.before) = some (some e)) := by
  have hsi : self ≠ item := fun h => hns (h ▸ List.mem_cons_self item rest)
  have hfc : ∀ x : LinkedListItem T, x.unlinkCleanup = true →
      (x.unlinkCleanup || ((s.heap self).map (·.unlinkCleanup)).getD false) = true := by
    intro x hx
    rw [hx]
    rfl
  have hseg1 : segb (insertBefore s item self).heap false (some self) (item :: rest) none
      = true := by
    refine segb_update_first (fun x =>
        { x with before := some self,
                 unlinkCleanup := x.unlinkCleanup || ((s.heap self).map (·.unlinkCleanup)).getD false })
      hseg ?_ (fun _ => rfl) (fun _ => rfl) (fun x hx => hfc x hx) ?_
    · rw [insertBefore_heap]
      simp
    · intro x hx
      rw [insertBefore_heap]
      have : ¬ (x = item) := fun h => (List.nodup_cons.mp hnd).1 (h ▸ hx)
      simp [this]
  cases hob : selfIt.behind with
  | none =>
    have hred : insertBehind s self item
        = setBehind (insertBefore s item self) self (some item) := by
      refine insertBehind_simple hsi ?_
      rw [hself]
      simpa using hob
    constructor
    · rw [hred, segb_cons]
      refine ⟨{ selfIt with behind := some item }, ?_, rfl, ?_, rfl, ?_⟩
      · rw [setBehind_heap, insertBefore_heap]
        simp [hsi, hself]
      · intro h
        exact absurd h (by decide)
      · refine segb_update_first (fun x =>
            { x with before := some self,
                     unlinkCleanup := x.unlinkCleanup || ((s.heap self).map (·.unlinkCleanup)).getD false })
          hseg ?_ (fun _ => rfl) (fun _ => rfl) (fun x hx => hfc x hx) ?_
        · rw [setBehind_heap, insertBefore_heap]
          simp [Ne.symm hsi]
        · intro x hx
          rw [setBehind_heap, insertBefore_heap]
          have h1 : ¬ (x = self) := fun h => hns (h ▸ List.mem_cons_of_mem _ hx)
          have h2 : ¬ (x = item) := fun h => (List.nodup_cons.mp hnd).1 (h ▸ hx)
          simp [h1, h2]
    · intro ox hox
      exact Option.noConfusion hox
  | some ox =>
    obtain ⟨hoxni, hoxs, oIt, hoIt⟩ := hnext ox (by rw [hob])
    obtain ⟨e, he⟩ : ∃ e, (item :: rest).getLast? = some e :=
      ⟨_, List.getLast?_eq_getLast_of_ne_nil (by simp)⟩
    have hemem : e ∈ item :: rest := by
      have hsplit := List.dropLast_append_getLast? e he
      rw [← hsplit]
      simp
    have hes : e ≠ self := fun h => hns (h ▸ hemem)
    have heox : ¬ (e = ox) := fun h => hoxni (h ▸ hemem)
    have hoxitem : ¬ (ox = item) := fun h => hoxni (h ▸ List.mem_cons_self item rest)
    obtain ⟨itE, hitE, hitEbeh⟩ := segb_last_of_chain hseg1 he
    have hred : insertBehind s self item
        = setBehind (setBehind (insertBefore (insertBefore (insertBefore s item self) ox e) ox e)
            e (some ox)) self (some item) := by
      unfold insertBehind
      simp only [insertBehindFuel]
      have h1 : ((insertBefore s item self).heap self).bind (·.behind) = some ox := by
        rw [insertBefore_heap]
        simp [hsi, hself, hob]
      rw [h1]
      dsimp only
      have h2 : chainEnd (insertBefore s item self).heap (insertBefore s item self).fresh item
          = some e := by
        rw [insertBefore_fresh]
        rw [chainEnd_chain rest item (some self) hseg1 s.fresh
          (by simp only [List.length_cons] at hlen; omega)]
        exact he
      rw [h2]
      dsimp only
      have h3 : ((insertBefore (insertBefore (insertBefore s item self) ox e) ox e).heap e).bind
          (·.behind) = none := by
        rw [insertBefore_heap]
        rw [if_neg heox]
        rw [insertBefore_heap]
        rw [if_neg heox]
        rw [hitE]
        simpa using hitEbeh
      rw [h3]
    have hse : ¬ (self = e) := fun h => hes h.symm
    have hso : ¬ (self = ox) := fun h => hoxs h.symm
    constructor
    · rw [hred, segb_cons]
      refine ⟨{ selfIt with behind := some item }, ?_, rfl, ?_, rfl, ?_⟩
      · rw [setBehind_heap, if_pos rfl, setBehind_heap, if_neg hse, insertBefore_heap,
          if_neg hso, insertBefore_heap, if_neg hso, insertBefore_heap, if_neg hsi, hself]
        rfl
      · intro h
        exact absurd h (by decide)
      · refine segb_update_last (fun x => { x with behind := some ox }) he
          hnd hseg1 ?_ (fun _ => rfl) (fun _ => rfl) (fun _ h => h) ?_
        · rw [setBehind_heap, if_neg (fun h => hes h), setBehind_heap, if_pos rfl,
            insertBefore_heap, if_neg heox, insertBefore_heap, if_neg heox]
        · intro x hx hxe
          have hxs : ¬ (x = self) := fun h => hns (h ▸ hx)
          have hxo : ¬ (x = ox) := fun h => hoxni (h ▸ hx)
          rw [setBehind_heap, if_neg hxs, setBehind_heap, if_neg hxe, insertBefore_heap,
            if_neg hxo, insertBefore_heap, if_neg hxo]
    · intro ox' hox'
      rw [Option.some.injEq] at hox'
      subst hox'
      refine ⟨e, he, ?_⟩
      have hA : (insertBefore s item self).heap ox = some oIt := by
        rw [insertBefore_heap, if_neg hoxitem, hoIt]
      obtain ⟨w1, hB1, hB2⟩ : ∃ w1,
          (insertBefore (insertBefore s item self) ox e).heap ox = some w1 ∧
            w1.before = some e := by
        rw [insertBefore_heap, if_pos rfl, hA]
        exact ⟨_, rfl, rfl⟩
      obtain ⟨w2, hC1, hC2⟩ : ∃ w2,
          (insertBefore (insertBefore (insertBefore s item self) ox e) ox e).heap ox = some w2 ∧
            w2.before = some e := by
        rw [insertBefore_heap, if_pos rfl, hB1]
        exact ⟨_, rfl, rfl⟩
      rw [hred, setBehind_heap, if_neg (fun h : ox = self => hoxs h), setBehind_heap,
        if_neg (fun h : ox = e => heox h.symm), hC1]
      simp [hC2]


/-- Concrete state for the C3 witness: node 0 (with successor 1) is the
splice target, node 2 is a one-node chain to be inserted. -/
def c3state : LinkedList Nat :=
  { heap := fun j =>
      if j = 0 then some ⟨10, none, some 1, false⟩
      else if j = 1 then some ⟨11, some 0, none, false⟩
      else if j = 2 then some ⟨12, none, none, false⟩
      else none,
    fresh := 3, head := none, tail := none, length := 0 }

theorem C3_insertBehind_splices_chain_witness :
    (segb c3state.heap false none [2] none = true ∧ c3state.heap 0 = some ⟨10, none, some 1, false⟩) ∧
    (segb (insertBehind c3state 0 2).heap false none (0 :: 2 :: []) (some 1) = true ∧
     (∀ ox, (⟨10, none, some 1, false⟩ : LinkedListItem Nat).behind = some ox →
        ∃ e, ([2] : List Nat).getLast? = some e ∧
          ((insertBehind c3state 0 2).heap ox).map (·.before) = some (some e))) :=
  ⟨⟨by decide, by decide⟩,
    C3_insertBehind_splices_chain c3state 0 2 ⟨10, none, some 1, false⟩ [] none
      (by decide) (by decide) (by decide) (by decide) (by decide)
      (by
        intro ox h
        rw [Option.some.injEq] at h
        subst h
        exact ⟨by decide, by decide, ⟨⟨11, some 0, none, false⟩, rfl⟩⟩)⟩

/-- C4: for a linked node with well-formed neighbours, `unlink` rewires the
predecessor's `behind` to the node's `behind` and the successor's `before`
to the node's `before` (in both modes); with `unlink(false)` the unlinked
node itself keeps its former links (only the callback reference is cleared),
while `unlink(true)` additionally clears its own `before` and `behind`. -/
theorem C4_unlink_relinks_neighbors (s : LinkedList T) (i : Nat) (it : LinkedListItem T)
    (hit : s.heap i = some it)
    (hpa : ∀ x, it.before = some x →
      x ≠ i ∧ (∃ pIt, s.heap x = some pIt) ∧ it.behind ≠ some x)
    (hna : ∀ x, it.behind = some x → x ≠ i ∧ ∃ nIt, s.heap x = some nIt) :
    (∀ (u : Bool) (x : Nat), it.before = some x →
        ((unlink s i u).heap x).map (·.behind) = some it.behind) ∧
    (∀ (u : Bool) (x : Nat), it.behind = some x →
        ((unlink s i u).heap x).map (·.before) = some it.before) ∧
    (unlink s i false).heap i = some { it with unlinkCleanup := false } ∧
    (unlink s i true).heap i
      = some { it with before := none, behind := none, unlinkCleanup := false } := by
  have hbi : it.before ≠ some i := fun h => (hpa i h).1 rfl
  have hbhi : it.behind ≠ some i := fun h => (hna i h).1 rfl
  refine ⟨?_, ?_, unlink_heap_self_false hit hbi hbhi, unlink_heap_self_true hit hbi hbhi⟩
  · intro u x hx
    obtain ⟨hxi, ⟨pIt, hpIt⟩, hbx⟩ := hpa x hx
    rw [unlink_heap_before_target hit x hx hxi hbx u, hpIt]
    rfl
  · intro u x hx
    obtain ⟨hxi, nIt, hnIt⟩ := hna x hx
    rw [unlink_heap_behind_target hit x hx hxi (fun hy => (hpa x hy).2.2 hx) u, hnIt]
    rfl

theorem C4_unlink_relinks_neighbors_witness :
    (fromList ([1, 2, 3] : List Nat)).heap 1 = some ⟨2, some 0, some 2, true⟩ ∧
    ((∀ (u : Bool) (x : Nat),
        (⟨2, some 0, some 2, true⟩ : LinkedListItem Nat).before = some x →
        ((unlink (fromList ([1, 2, 3] : List Nat)) 1 u).heap x).map (·.behind)
          = some (⟨2, some 0, some 2, true⟩ : LinkedListItem Nat).behind) ∧
     (∀ (u : Bool) (x : Nat),
        (⟨2, some 0, some 2, true⟩ : LinkedListItem Nat).behind = some x →
        ((unlink (fromList ([1, 2, 3] : List Nat)) 1 u).heap x).map (·.before)
          = some (⟨2, some 0, some 2, true⟩ : LinkedListItem Nat).before) ∧
     (unlink (fromList ([1, 2, 3] : List Nat)) 1 false).heap 1
        = some ⟨2, some 0, some 2, false⟩ ∧
     (unlink (fromList ([1, 2, 3] : List Nat)) 1 true).heap 1
        = some ⟨2, none, none, false⟩) :=
  ⟨by decide,
    C4_unlink_relinks_neighbors (fromList ([1, 2, 3] : List Nat)) 1 ⟨2, some 0, some 2, true⟩
      (by decide)
      (by
        intro x h
        injection h with h
        subst h
        exact ⟨by decide, ⟨⟨1, none, some 1, true⟩, by decide⟩, by decide⟩)
      (by
        intro x h
        injection h with h
        subst h
        exact ⟨by decide, ⟨3, some 1, none, true⟩, by decide⟩)⟩

/-- C5: on a node carrying the cleanup callback, the first `unlink` clears
the callback reference and decrements the list's length by one; a second
`unlink` of the same node finds no callback and leaves the length unchanged,
so unlinking a list's node twice decrements `length` only once. -/
theorem C5_unlink_callback_once (s : LinkedList T) (i : Nat) (it : LinkedListItem T)
    (u u' : Bool) (hit : s.heap i = some it) (hcl : it.unlinkCleanup = true) :
    ((unlink s i u).heap i).map (·.unlinkCleanup) = some false ∧
    (unlink s i u).length = s.length - 1 ∧
    (unlink (unlink s i u) i u').length = s.length - 1 := by
  refine ⟨unlink_cleanup_cleared hit u, unlink_length_clean hit hcl u, ?_⟩
  obtain ⟨it', hit', hcl'⟩ := unlink_heap_isSome hit u
  rw [unlink_length_notclean hit' hcl' u', unlink_length_clean hit hcl u]

theorem C5_unlink_callback_once_witness :
    (fromList ([5] : List Nat)).heap 0 = some ⟨5, none, none, true⟩ ∧
    (((unlink (fromList ([5] : List Nat)) 0 false).heap 0).map (·.unlinkCleanup) = some false ∧
     (unlink (fromList ([5] : List Nat)) 0 false).length = (fromList ([5] : List Nat)).length - 1 ∧
     (unlink (unlink (fromList ([5] : List Nat)) 0 false) 0 true).length
        = (fromList ([5] : List Nat)).length - 1) :=
  ⟨by decide,
    C5_unlink_callback_once (fromList ([5] : List Nat)) 0 ⟨5, none, none, true⟩ false true
      (by decide) (by decide)⟩

/-- C6 counterexample: the claim says `length` never becomes negative even
when `unlink()` is called on a node retained after a non-unchaining
`clear()`; but `clear()` does not strip the nodes' cleanup callbacks, so that
`unlink` runs the cleanup on the already-reset list and drives `length`
from `0` to `-1`. -/
theorem C6_negative_length_counterexample :
    (unlink (clear (fromList ([5] : List Nat)) false) 0 false).length = -1 ∧
    (unlink (clear (fromList ([5] : List Nat)) false) 0 false).length < 0 :=
  ⟨by decide, by decide⟩

/-- C6 amended: under the public list operations themselves the length is
always a nonnegative integer; the exception forced by the counterexample is
`unlink()` on a node retained from before a non-unchaining `clear()`, which
decrements `length` below zero. -/
theorem C6_length_nonneg [DecidableEq T] (s : LinkedList T) (hr : Reachable s) :
    0 ≤ s.length := by
  obtain ⟨ids, hc⟩ := reachable_wf hr
  rw [hc.2.2.2.1]
  exact_mod_cast Int.natCast_nonneg ids.length

theorem C6_length_nonneg_witness :
    Reachable (fromList ([7] : List Nat)) ∧ 0 ≤ (fromList ([7] : List Nat)).length :=
  ⟨Reachable.init [7], C6_length_nonneg _ (Reachable.init [7])⟩

/-- C7: `remove(v)` unlinks the first node (scanning from the head) whose
value equals `v` and returns whether a match was found, leaving the state
literally unchanged when there is none, so the remaining values are the
original ones with the first occurrence of `v` erased;
`removeAllOccurrences(v)` unlinks every matching node in one head-to-tail
scan (continuing through removed nodes via their still-set `behind`
pointer) and returns whether any match existed, leaving exactly the values
different from `v`. -/
theorem C7_remove_and_removeAllOccurrences [DecidableEq T] (s : LinkedList T)
    (ids : List Nat) (v : T) (hc : isChain s ids) :
    ((remove s v).2 = true ↔ v ∈ chainVals s.heap ids) ∧
    (v ∉ chainVals s.heap ids → remove s v = (s, false)) ∧
    (∃ ids', isChain (remove s v).1 ids' ∧
      chainVals (remove s v).1.heap ids' = (chainVals s.heap ids).erase v) ∧
    ((removeAllOccurrences s v).2 = true ↔ v ∈ chainVals s.heap ids) ∧
    (∃ ids', isChain (removeAllOccurrences s v).1 ids' ∧
      chainVals (removeAllOccurrences s v).1.heap ids'
        = (chainVals s.heap ids).filter (fun x => decide (x ≠ v))) := by
  have hc0 : isChain s ([] ++ ids) := by simpa using hc
  have hfuel : ids.length ≤ s.fresh := length_le_of_nodup_lt hc.2.2.2.2.1 hc.2.2.2.2.2
  obtain ⟨ids1, ha1, hb1, hr1, -, hu1⟩ :=
    removeAux_full ids [] s v s.fresh hc0 hfuel (by simp)
  obtain ⟨ids2, ha2, hb2, hr2, -⟩ := removeAllAux_full ids [] s v s.fresh false hc0 hfuel
  unfold remove removeAllOccurrences
  rw [hc.2.1]
  refine ⟨hr1, hu1, ⟨ids1, ha1, by simpa using hb1⟩, ?_, ⟨ids2, ha2, by simpa using hb2⟩⟩
  rw [hr2]
  simp

theorem C7_remove_and_removeAllOccurrences_witness :
    isChain (fromList ([3, 4, 5, 3] : List Nat)) [0, 1, 2, 3] ∧
    (((remove (fromList ([3, 4, 5, 3] : List Nat)) 3).2 = true ↔
        3 ∈ chainVals (fromList ([3, 4, 5, 3] : List Nat)).heap [0, 1, 2, 3]) ∧
     (3 ∉ chainVals (fromList ([3, 4, 5, 3] : List Nat)).heap [0, 1, 2, 3] →
        remove (fromList ([3, 4, 5, 3] : List Nat)) 3 = (fromList ([3, 4, 5, 3] : List Nat), false)) ∧
     (∃ ids', isChain (remove (fromList ([3, 4, 5, 3] : List Nat)) 3).1 ids' ∧
        chainVals (remove (fromList ([3, 4, 5, 3] : List Nat)) 3).1.heap ids'
          = (chainVals (fromList ([3, 4, 5, 3] : List Nat)).heap [0, 1, 2, 3]).erase 3) ∧
     ((removeAllOccurrences (fromList ([3, 4, 5, 3] : List Nat)) 3).2 = true ↔
        3 ∈ chainVals (fromList ([3, 4, 5, 3] : List Nat)).heap [0, 1, 2, 3]) ∧
     (∃ ids', isChain (removeAllOccurrences (fromList ([3, 4, 5, 3] : List Nat)) 3).1 ids' ∧
        chainVals (removeAllOccurrences (fromList ([3, 4, 5, 3] : List Nat)) 3).1.heap ids'
          = (chainVals (fromList ([3, 4, 5, 3] : List Nat)).heap [0, 1, 2, 3]).filter
              (fun x => decide (x ≠ 3)))) :=
  ⟨by decide,
    C7_remove_and_removeAllOccurrences (fromList ([3, 4, 5, 3] : List Nat)) [0, 1, 2, 3] 3
      (by decide)⟩

/-- C8: `getItemByIndex` returns absent on the empty list; a nonnegative
index `i` yields the `i`-th node from the head (absent when `i ≥ length`);
a negative index `i ≥ -length` yields the node at position `length + i`
(so `-1` is the tail); any other index yields absent. -/
theorem C8_getItemByIndex_resolution (s : LinkedList T) (ids : List Nat)
    (hc : isChain s ids) (index : Int) :
    getItemByIndex s index =
      if 0 ≤ index then ids[index.toNat]?
      else if -(ids.length : Int) ≤ index then ids[((ids.length : Int) + index).toNat]?
      else none :=
  getItemByIndex_chain hc index

theorem C8_getItemByIndex_resolution_witness :
    isChain (fromList ([1, 2, 3] : List Nat)) [0, 1, 2] ∧
    getItemByIndex (fromList ([1, 2, 3] : List Nat)) (-1) =
      (if 0 ≤ (-1 : Int) then ([0, 1, 2] : List Nat)[(-1 : Int).toNat]?
       else if -((([0, 1, 2] : List Nat).length : Int)) ≤ -1 then
         ([0, 1, 2] : List Nat)[((([0, 1, 2] : List Nat).length : Int) + -1).toNat]?
       else none) :=
  ⟨by decide,
    C8_getItemByIndex_resolution (fromList ([1, 2, 3] : List Nat)) [0, 1, 2] (by decide) (-1)⟩

/-- C9: `clear` always leaves `head = tail = absent` and `length = 0`;
with the default argument it touches no node (the heap is unchanged, so the
former nodes keep their links to each other); `clear(true)` first fully
detaches every node of the chain; and a subsequent `push x` yields a
single-node list whose head and tail are the same fresh node holding `x`. -/
theorem C9_clear_modes (s : LinkedList T) (ids : List Nat) (u : Bool) (x : T)
    (hc : isChain s ids) :
    (clear s u).head = none ∧ (clear s u).tail = none ∧ (clear s u).length = 0 ∧
    (clear s false).heap = s.heap ∧
    (∀ i ∈ ids, ∃ it', (clear s true).heap i = some it' ∧
      it'.before = none ∧ it'.behind = none) ∧
    ((pushOne (clear s u) x).head = some (clear s u).fresh ∧
     (pushOne (clear s u) x).tail = (pushOne (clear s u) x).head ∧
     (pushOne (clear s u) x).length = 1 ∧
     ((pushOne (clear s u) x).heap (clear s u).fresh).map (·.value) = some x) := by
  have hfuel : ids.length ≤ s.fresh := length_le_of_nodup_lt hc.2.2.2.2.1 hc.2.2.2.2.2
  obtain ⟨hdet, -⟩ := clearLoop_detach ids s hc s.fresh hfuel
  obtain ⟨hcp, hval, -, -⟩ := pushOne_chain (clear_chain s u) x
  refine ⟨rfl, rfl, rfl, rfl, ?_, ?_, ?_, ?_, ?_⟩
  · exact hdet
  · rw [hcp.2.1]
    rfl
  · rw [hcp.2.2.1, hcp.2.1]
    rfl
  · rw [hcp.2.2.2.1]
    rfl
  · unfold valueAt at hval
    exact hval

theorem C9_clear_modes_witness :
    isChain (fromList ([1, 2] : List Nat)) [0, 1] ∧
    ((clear (fromList ([1, 2] : List Nat)) true).head = none ∧
     (clear (fromList ([1, 2] : List Nat)) true).tail = none ∧
     (clear (fromList ([1, 2] : List Nat)) true).length = 0 ∧
     (clear (fromList ([1, 2] : List Nat)) false).heap = (fromList ([1, 2] : List Nat)).heap ∧
     (∀ i ∈ ([0, 1] : List Nat), ∃ it',
        (clear (fromList ([1, 2] : List Nat)) true).heap i = some it' ∧
          it'.before = none ∧ it'.behind = none) ∧
     ((pushOne (clear (fromList ([1, 2] : List Nat)) true) 9).head
        = some (clear (fromList ([1, 2] : List Nat)) true).fresh ∧
      (pushOne (clear (fromList ([1, 2] : List Nat)) true) 9).tail
        = (pushOne (clear (fromList ([1, 2] : List Nat)) true) 9).head ∧
      (pushOne (clear (fromList ([1, 2] : List Nat)) true) 9).length = 1 ∧
      ((pushOne (clear (fromList ([1, 2] : List Nat)) true) 9).heap
          (clear (fromList ([1, 2] : List Nat)) true).fresh).map (·.value) = some 9)) :=
  ⟨by decide, C9_clear_modes (fromList ([1, 2] : List Nat)) [0, 1] true 9 (by decide)⟩

/-- C10: `unshift` prepends its arguments one at a time, so the group of
arguments ends up in reverse of the given order in front of the old
contents, and the returned value is the new length (old length plus the
number of arguments). -/
theorem C10_unshift_reverses_arguments (s : LinkedList T) (ids : List Nat)
    (vs : List T) (hc : isChain s ids) :
    (unshift s vs).2 = s.length + vs.length ∧
    ∃ ids', isChain (unshift s vs).1 ids' ∧
      chainVals (unshift s vs).1.heap ids' = vs.reverse ++ chainVals s.heap ids := by
  obtain ⟨ids', ha, hb, hlen⟩ := foldl_unshiftOne_chain vs s ids hc
  unfold unshift
  exact ⟨hlen, ids', ha, hb⟩

theorem C10_unshift_reverses_arguments_witness :
    isChain (fromList ([1, 2, 3] : List Nat)) [0, 1, 2] ∧
    ((unshift (fromList ([1, 2, 3] : List Nat)) [9, 8]).2
        = (fromList ([1, 2, 3] : List Nat)).length + ([9, 8] : List Nat).length ∧
     ∃ ids', isChain (unshift (fromList ([1, 2, 3] : List Nat)) [9, 8]).1 ids' ∧
       chainVals (unshift (fromList ([1, 2, 3] : List Nat)) [9, 8]).1.heap ids'
         = ([9, 8] : List Nat).reverse
            ++ chainVals (fromList ([1, 2, 3] : List Nat)).heap [0, 1, 2]) :=
  ⟨by decide,
    C10_unshift_reverses_arguments (fromList ([1, 2, 3] : List Nat)) [0, 1, 2] [9, 8] (by decide)⟩

end DLL
